import Mathlib

/-
Verification of the TreeLab tree-algorithm engine (vanilla JS).

Shallow embedding conventions:
  - JS numbers that the algorithms compare and store are modelled as Int
    (the UI feeds parseInt results into every numeric structure).
  - A JS value that may be undefined (out-of-bounds array reads, keys
    promoted out of bounds) is modelled as JSVal := Option Int, where
    none stands for undefined; JS comparison operators on undefined
    yield false, which jlt / jgt / jeqJS reproduce.
  - JS arrays are Lean lists; arr[i] reads out of bounds give undefined.
  - The animation-step log (TreeBase.animationSteps) is not modelled: it
    is append-only and never influences control flow or results of the
    operations verified here.
  - eventBus.emit calls are modelled by returning the list of emitted
    events next to the new state.
  - Node parent back-references are written but never read by any of the
    algorithms below, so pure trees omit them.
-/

/-! ## JS value and array primitives -/

/-- Model of a JS value that is either a number or undefined. -/
abbrev JSVal := Option Int

/-- JS comparison a < b: false whenever either side is undefined (NaN compare). -/
def jlt (a b : JSVal) : Bool :=
  match a, b with
  | some x, some y => decide (x < y)
  | _, _ => false

/-- JS comparison a > b: false whenever either side is undefined. -/
def jgt (a b : JSVal) : Bool :=
  match a, b with
  | some x, some y => decide (x > y)
  | _, _ => false

/-- JS strict equality on numbers / undefined. -/
def jeqJS (a b : JSVal) : Bool :=
  match a, b with
  | some x, some y => decide (x = y)
  | none, none => true
  | _, _ => false

/-- JS array read arr[i]: the element when in bounds, undefined otherwise. -/
def jsGet (l : List JSVal) (i : Nat) : JSVal :=
  l.getD i none

/-- JS array write arr[i] = v. Writing one past the end appends; writing
further out pads the gap with undefined holes, as JS does. -/
def jsSet (l : List JSVal) (i : Nat) (v : JSVal) : List JSVal :=
  if i < l.length then l.set i v
  else l ++ List.replicate (i - l.length) none ++ [v]

/-- Net effect of the JS shift loop
for j from arr.length down to i+1: arr[j] = arr[j-1]
followed by arr[i] = v: the value v is inserted at position i.  Every
call site has i ≤ arr.length, where the loop plus the final write are
exactly this insertion. -/
def jsInsertAt (l : List α) (i : Nat) (v : α) : List α :=
  l.take i ++ [v] ++ l.drop i

/-- JS arr.length = n for n ≤ arr.length: truncation. -/
def jsTruncate (l : List α) (n : Nat) : List α :=
  l.take n

/-! ## Event notification channel (utils/EventBus.js)

Structures announce completed mutations on a singleton bus.  Only the
event names the tree classes emit are modelled; a payload object
carrying the value and the mutated tree is part of the constructor. -/

/-- Events emitted through eventBus.emit by the tree operations, with
their payload fields. -/
inductive TreeEvent (α σ : Type) where
  | nodeInserted (value : α) (tree : σ)
  | nodeDeleted (value : α) (tree : σ)
  | nodeSearched (value : α) (found : Bool) (tree : σ)
  | treeReset (tree : σ)
deriving DecidableEq

/-! ## Binary tree nodes (core/TreeNode.js)

One node class serves BST, AVL and Red-Black trees: value, left, right,
height (default 1) and color (default RED). -/

inductive Color where
  | red
  | black
deriving DecidableEq

/-- Binary tree built from TreeNode objects; nil is the JS null. -/
inductive BinTree where
  | nil
  | node (left : BinTree) (value : Int) (height : Nat) (color : Color) (right : BinTree)
deriving DecidableEq

namespace BinTree

/-- Constructor new TreeNode(value): height 1, color RED, no children. -/
def newNode (value : Int) : BinTree :=
  node nil value 1 Color.red nil

/-- Reading node.left, with null mapped to null. -/
def leftOf : BinTree → BinTree
  | nil => nil
  | node l _ _ _ _ => l

/-- Reading node.right. -/
def rightOf : BinTree → BinTree
  | nil => nil
  | node _ _ _ _ r => r

/-- Reading node.value.  The algorithms below only read it on non-null
nodes (on null JS would throw); the default 0 is never reached under the
guards of the call sites. -/
def nodeValue : BinTree → Int
  | nil => 0
  | node _ v _ _ _ => v

/-- Replacing node.left. -/
def setLeft : BinTree → BinTree → BinTree
  | nil, _ => nil
  | node _ v h c r, l => node l v h c r

/-- Replacing node.right. -/
def setRight : BinTree → BinTree → BinTree
  | nil, _ => nil
  | node l v h c _, r => node l v h c r

/-- AVLTree._getNodeHeight: 0 for null, stored height otherwise. -/
def getNodeHeight : BinTree → Nat
  | nil => 0
  | node _ _ h _ _ => h

/-- AVLTree._updateHeight: node.height = 1 + max(h(left), h(right)). -/
def updateHeight : BinTree → BinTree
  | nil => nil
  | node l v _ c r => node l v (1 + max (getNodeHeight l) (getNodeHeight r)) c r

/-- AVLTree._getBalance: h(left) - h(right), 0 for null. -/
def getBalance : BinTree → Int
  | nil => 0
  | node l _ _ _ r => (getNodeHeight l : Int) - (getNodeHeight r : Int)

/-- TreeBase._getHeight: recomputed height of the node graph. -/
def realHeight : BinTree → Nat
  | nil => 0
  | node l _ _ _ r => 1 + max (realHeight l) (realHeight r)

/-- TreeBase._inorder restricted to the visited values, in visit order. -/
def inorderVals : BinTree → List Int
  | nil => []
  | node l v _ _ r => inorderVals l ++ v :: inorderVals r

end BinTree

open BinTree

/-! ## Binary Search Tree (BSTTree in SegmentTree.js bundle)

The recursive helpers mutate this.nodeCount, so they thread the count as
an extra argument and return the updated value. -/

/-- BSTTree._insertNode: descend by comparison, attach a new leaf in the
first null slot, ignore duplicates. -/
def bstInsertNode : BinTree → Int → Nat → BinTree × Nat
  | BinTree.nil, value, cnt => (newNode value, cnt + 1)
  | BinTree.node l v h c r, value, cnt =>
    if value < v then
      match l with
      | BinTree.nil => (BinTree.node (newNode value) v h c r, cnt + 1)
      | _ =>
        let p := bstInsertNode l value cnt
        (BinTree.node p.1 v h c r, p.2)
    else if value > v then
      match r with
      | BinTree.nil => (BinTree.node l v h c (newNode value), cnt + 1)
      | _ =>
        let p := bstInsertNode r value cnt
        (BinTree.node l v h c p.1, p.2)
    else (BinTree.node l v h c r, cnt)

/-- BSTTree._findMin / AVLTree._findMin: leftmost value of a non-null
subtree (the loop never runs on null). -/
def findMinVal : BinTree → Int
  | BinTree.nil => 0
  | BinTree.node BinTree.nil v _ _ _ => v
  | BinTree.node (BinTree.node a w h c b) _ _ _ _ => findMinVal (BinTree.node a w h c b)

/-- BSTTree._deleteNode: plain BST delete, two-child case replaces the
value with the in-order successor and deletes it from the right subtree. -/
def bstDeleteNode : BinTree → Int → Nat → BinTree × Nat
  | BinTree.nil, _, cnt => (BinTree.nil, cnt)
  | BinTree.node l v h c r, value, cnt =>
    if value < v then
      let p := bstDeleteNode l value cnt
      (BinTree.node p.1 v h c r, p.2)
    else if value > v then
      let p := bstDeleteNode r value cnt
      (BinTree.node l v h c p.1, p.2)
    else
      if l = BinTree.nil ∧ r = BinTree.nil then (BinTree.nil, cnt - 1)
      else if l = BinTree.nil ∨ r = BinTree.nil then
        (if l ≠ BinTree.nil then l else r, cnt - 1)
      else
        let sv := findMinVal r
        let p := bstDeleteNode r sv cnt
        (BinTree.node l sv h c p.1, p.2)

/-- State of a BSTTree instance. -/
structure BSTTree where
  root : BinTree
  nodeCount : Nat
deriving DecidableEq

/-- Fresh BSTTree. -/
def BSTTree.init : BSTTree := ⟨BinTree.nil, 0⟩

/-- BSTTree.insert: empty-tree shortcut, otherwise the recursive helper;
always emits NODE_INSERTED with payload value and tree. -/
def BSTTree.insert (s : BSTTree) (value : Int) : BSTTree × List (TreeEvent Int BSTTree) :=
  if s.root = BinTree.nil then
    let s2 : BSTTree := ⟨newNode value, s.nodeCount + 1⟩
    (s2, [TreeEvent.nodeInserted value s2])
  else
    let p := bstInsertNode s.root value s.nodeCount
    let s2 : BSTTree := ⟨p.1, p.2⟩
    (s2, [TreeEvent.nodeInserted value s2])

/-- BSTTree.delete: runs the helper, reports success iff nodeCount
dropped, and emits NODE_DELETED only in that case. -/
def BSTTree.delete (s : BSTTree) (value : Int) :
    Bool × BSTTree × List (TreeEvent Int BSTTree) :=
  let p := bstDeleteNode s.root value s.nodeCount
  let s2 : BSTTree := ⟨p.1, p.2⟩
  let deleted := p.2 < s.nodeCount
  (deleted, s2, if deleted then [TreeEvent.nodeDeleted value s2] else [])

/-- Sequence of BSTTree.insert calls starting from a given state. -/
def BSTTree.insertList (s : BSTTree) (vs : List Int) : BSTTree :=
  vs.foldl (fun a v => (BSTTree.insert a v).1) s

/-! ## AVL Tree (trees/AVLTree.js) -/

/-- AVLTree._rotateRight.  Order of mutations as in the source:
x.right = y; y.left = T2; update height of y then of x.  A null left
child would make JS throw; that shape is unreachable from the guarded
call sites and is returned unchanged. -/
def rotateRight : BinTree → BinTree
  | BinTree.node (BinTree.node a xv xh xc b) yv yh yc c =>
    let y2 := updateHeight (BinTree.node b yv yh yc c)
    updateHeight (BinTree.node a xv xh xc y2)
  | t => t

/-- AVLTree._rotateLeft, mirror image of rotateRight. -/
def rotateLeft : BinTree → BinTree
  | BinTree.node a xv xh xc (BinTree.node b yv yh yc c) =>
    let x2 := updateHeight (BinTree.node a xv xh xc b)
    updateHeight (BinTree.node x2 yv yh yc c)
  | t => t

/-- Rebalancing tail of AVLTree._insertNode: the four sequentially
tested rotation cases, dispatched on the inserted value. -/
def avlRebalanceIns (n : BinTree) (value : Int) : BinTree :=
  let bal := getBalance n
  if bal > 1 ∧ value < nodeValue (leftOf n) then rotateRight n
  else if bal < -1 ∧ value > nodeValue (rightOf n) then rotateLeft n
  else if bal > 1 ∧ value > nodeValue (leftOf n) then
    rotateRight (setLeft n (rotateLeft (leftOf n)))
  else if bal < -1 ∧ value < nodeValue (rightOf n) then
    rotateLeft (setRight n (rotateRight (rightOf n)))
  else n

/-- AVLTree._insertNode: BST insertion, then height update and the
rebalancing cases; the duplicate branch returns the node untouched. -/
def avlInsertNode : BinTree → Int → Nat → BinTree × Nat
  | BinTree.nil, value, cnt => (newNode value, cnt + 1)
  | BinTree.node l v h c r, value, cnt =>
    if value < v then
      let p := avlInsertNode l value cnt
      (avlRebalanceIns (updateHeight (BinTree.node p.1 v h c r)) value, p.2)
    else if value > v then
      let p := avlInsertNode r value cnt
      (avlRebalanceIns (updateHeight (BinTree.node l v h c p.1)) value, p.2)
    else (BinTree.node l v h c r, cnt)

/-- Rebalancing tail of AVLTree._deleteNode: dispatched on the balance
factor of the taller child, with the >= 0 / <= 0 tie-breaks. -/
def avlRebalanceDel (n : BinTree) : BinTree :=
  let bal := getBalance n
  if bal > 1 ∧ getBalance (leftOf n) ≥ 0 then rotateRight n
  else if bal > 1 ∧ getBalance (leftOf n) < 0 then
    rotateRight (setLeft n (rotateLeft (leftOf n)))
  else if bal < -1 ∧ getBalance (rightOf n) ≤ 0 then rotateLeft n
  else if bal < -1 ∧ getBalance (rightOf n) > 0 then
    rotateLeft (setRight n (rotateRight (rightOf n)))
  else n

/-- AVLTree._deleteNode: BST delete; the one-or-no-child branch returns
the spliced child directly (no rebalance at the removed node), every
other branch updates the height and rebalances on the way out. -/
def avlDeleteNode : BinTree → Int → Nat → BinTree × Nat
  | BinTree.nil, _, cnt => (BinTree.nil, cnt)
  | BinTree.node l v h c r, value, cnt =>
    if value < v then
      let p := avlDeleteNode l value cnt
      (avlRebalanceDel (updateHeight (BinTree.node p.1 v h c r)), p.2)
    else if value > v then
      let p := avlDeleteNode r value cnt
      (avlRebalanceDel (updateHeight (BinTree.node l v h c p.1)), p.2)
    else
      if l = BinTree.nil ∨ r = BinTree.nil then
        ((if l ≠ BinTree.nil then l else r), cnt - 1)
      else
        let sv := findMinVal r
        let p := avlDeleteNode r sv cnt
        (avlRebalanceDel (updateHeight (BinTree.node l sv h c p.1)), p.2)

/-- State of an AVLTree instance. -/
structure AVLTree where
  root : BinTree
  nodeCount : Nat
deriving DecidableEq

/-- Fresh AVLTree. -/
def AVLTree.init : AVLTree := ⟨BinTree.nil, 0⟩

/-- AVLTree.insert: helper on the root, always emits NODE_INSERTED. -/
def AVLTree.insert (s : AVLTree) (value : Int) : AVLTree × List (TreeEvent Int AVLTree) :=
  let p := avlInsertNode s.root value s.nodeCount
  let s2 : AVLTree := ⟨p.1, p.2⟩
  (s2, [TreeEvent.nodeInserted value s2])

/-- AVLTree.delete: emits NODE_DELETED iff nodeCount dropped. -/
def AVLTree.delete (s : AVLTree) (value : Int) :
    Bool × AVLTree × List (TreeEvent Int AVLTree) :=
  let p := avlDeleteNode s.root value s.nodeCount
  let s2 : AVLTree := ⟨p.1, p.2⟩
  let deleted := p.2 < s.nodeCount
  (deleted, s2, if deleted then [TreeEvent.nodeDeleted value s2] else [])

/-- One insert or delete call on an AVL tree. -/
inductive AVLOp where
  | ins (value : Int)
  | del (value : Int)

/-- Apply a sequence of AVLTree.insert / AVLTree.delete calls. -/
def AVLTree.applyOps (s : AVLTree) : List AVLOp → AVLTree
  | [] => s
  | AVLOp.ins v :: rest => AVLTree.applyOps (AVLTree.insert s v).1 rest
  | AVLOp.del v :: rest => AVLTree.applyOps (AVLTree.delete s v).2.1 rest

/-- Sequence of AVLTree.insert calls. -/
def AVLTree.insertList (s : AVLTree) (vs : List Int) : AVLTree :=
  vs.foldl (fun a v => (AVLTree.insert a v).1) s

/-! ## Red-Black Tree (src/unnamed/part_001) -/

/-- RedBlackTree._isRed: null nodes count as BLACK. -/
def isRed : BinTree → Bool
  | BinTree.node _ _ _ Color.red _ => true
  | _ => false

/-- Painting a possibly-null node BLACK (used by _flipColors and the
root-blackening steps). -/
def setBlack : BinTree → BinTree
  | BinTree.nil => BinTree.nil
  | BinTree.node l v h _ r => BinTree.node l v h Color.black r

/-- RedBlackTree._flipColors: node RED, both children BLACK. -/
def flipColors : BinTree → BinTree
  | BinTree.nil => BinTree.nil
  | BinTree.node l v h _ r => BinTree.node (setBlack l) v h Color.red (setBlack r)

/-- RedBlackTree._rotateLeft: pivot takes the old color, the demoted
node turns RED; heights are not touched. -/
def rbRotateLeft : BinTree → BinTree
  | BinTree.node l v h c (BinTree.node rl rv rh _ rr) =>
    BinTree.node (BinTree.node l v h Color.red rl) rv rh c rr
  | t => t

/-- RedBlackTree._rotateRight, mirror image. -/
def rbRotateRight : BinTree → BinTree
  | BinTree.node (BinTree.node ll lv lh _ lr) v h c r =>
    BinTree.node ll lv lh c (BinTree.node lr v h Color.red r)
  | t => t

/-- RedBlackTree._fixInsertion: the three sequential (non-exclusive)
fix-up steps, each reassigning the local node. -/
def fixInsertion (n0 : BinTree) : BinTree :=
  let n1 := if isRed (leftOf n0) ∧ isRed (rightOf n0) then flipColors n0 else n0
  let n2 := if isRed (rightOf n1) ∧ ¬ isRed (leftOf n1) then rbRotateLeft n1 else n1
  if isRed (leftOf n2) ∧ isRed (leftOf (leftOf n2)) then rbRotateRight n2 else n2

/-- RedBlackTree._insertNode: BST insertion of a RED node followed by
_fixInsertion on the way out; duplicates return untouched. -/
def rbInsertNode : BinTree → Int → Nat → BinTree × Nat
  | BinTree.nil, value, cnt => (newNode value, cnt + 1)
  | BinTree.node l v h c r, value, cnt =>
    if value < v then
      let p := rbInsertNode l value cnt
      (fixInsertion (BinTree.node p.1 v h c r), p.2)
    else if value > v then
      let p := rbInsertNode r value cnt
      (fixInsertion (BinTree.node l v h c p.1), p.2)
    else (BinTree.node l v h c r, cnt)

/-- RedBlackTree._simpleBSTDelete: plain BST delete used in place of a
real Red-Black delete. -/
def rbSimpleBSTDelete : BinTree → Int → Nat → BinTree × Nat
  | BinTree.nil, _, cnt => (BinTree.nil, cnt)
  | BinTree.node l v h c r, value, cnt =>
    if value < v then
      let p := rbSimpleBSTDelete l value cnt
      (BinTree.node p.1 v h c r, p.2)
    else if value > v then
      let p := rbSimpleBSTDelete r value cnt
      (BinTree.node l v h c p.1, p.2)
    else
      if l = BinTree.nil then (r, cnt - 1)
      else if r = BinTree.nil then (l, cnt - 1)
      else
        let sv := findMinVal r
        let p := rbSimpleBSTDelete r sv cnt
        (BinTree.node l sv h c p.1, p.2)

/-- State of a RedBlackTree instance. -/
structure RedBlackTree where
  root : BinTree
  nodeCount : Nat
deriving DecidableEq

/-- Fresh RedBlackTree. -/
def RedBlackTree.init : RedBlackTree := ⟨BinTree.nil, 0⟩

/-- RedBlackTree.insert: helper, then force the root BLACK when
non-null; always emits NODE_INSERTED. -/
def RedBlackTree.insert (s : RedBlackTree) (value : Int) :
    RedBlackTree × List (TreeEvent Int RedBlackTree) :=
  let p := rbInsertNode s.root value s.nodeCount
  let r2 := if p.1 ≠ BinTree.nil then setBlack p.1 else p.1
  let s2 : RedBlackTree := ⟨r2, p.2⟩
  (s2, [TreeEvent.nodeInserted value s2])

/-- RedBlackTree.delete: simplified BST delete; the root is re-blackened
and NODE_DELETED emitted only when something was deleted AND the root is
still non-null. -/
def RedBlackTree.delete (s : RedBlackTree) (value : Int) :
    Bool × RedBlackTree × List (TreeEvent Int RedBlackTree) :=
  let p := rbSimpleBSTDelete s.root value s.nodeCount
  let deleted := p.2 < s.nodeCount
  if deleted ∧ p.1 ≠ BinTree.nil then
    let s2 : RedBlackTree := ⟨setBlack p.1, p.2⟩
    (deleted, s2, [TreeEvent.nodeDeleted value s2])
  else (deleted, ⟨p.1, p.2⟩, [])

/-- Sequence of RedBlackTree.insert calls. -/
def RedBlackTree.insertList (s : RedBlackTree) (vs : List Int) : RedBlackTree :=
  vs.foldl (fun a v => (RedBlackTree.insert a v).1) s

/-! ## Min Heap (trees/MinHeap.js)

The array is the source of truth; the mirrored display tree is rebuilt
from it after every mutation and carries no extra information, so the
state keeps the array and the node count. -/

/-- JS destructuring swap of arr[i] and arr[j] (both reads happen before
the writes); all call sites are in bounds. -/
def listSwap (a : List Int) (i j : Nat) : List Int :=
  (a.set i (a.getD j 0)).set j (a.getD i 0)

/-- MinHeap._heapifyUp: bubble the element at index up while it is
smaller than its parent at floor((i-1)/2). -/
def heapifyUp (a : List Int) (i : Nat) : List Int :=
  if i = 0 then a
  else
    let p := (i - 1) / 2
    if a.getD i 0 < a.getD p 0 then heapifyUp (listSwap a i p) p else a
termination_by i
decreasing_by omega

/-- First step of the smallest-child selection in MinHeap._heapifyDown:
smallest after comparing with the left child at 2i+1. -/
def hdSmallest1 (a : List Int) (i : Nat) : Nat :=
  if 2 * i + 1 < a.length ∧ a.getD (2 * i + 1) 0 < a.getD i 0 then 2 * i + 1 else i

/-- Second step: smallest after also comparing with the right child at
2i+2. -/
def hdSmallest (a : List Int) (i : Nat) : Nat :=
  if 2 * i + 2 < a.length ∧ a.getD (2 * i + 2) 0 < a.getD (hdSmallest1 a i) 0 then 2 * i + 2
  else hdSmallest1 a i

theorem hdSmallest1_cases (a : List Int) (i : Nat) :
    hdSmallest1 a i = i ∨ (hdSmallest1 a i = 2 * i + 1 ∧ 2 * i + 1 < a.length) := by
  unfold hdSmallest1
  split
  · next h => exact Or.inr ⟨rfl, h.1⟩
  · exact Or.inl rfl

theorem hdSmallest_cases (a : List Int) (i : Nat) :
    hdSmallest a i = i ∨ (i < hdSmallest a i ∧ hdSmallest a i < a.length) := by
  unfold hdSmallest
  rcases hdSmallest1_cases a i with h1 | h1 <;>
    (split
     · next h => exact Or.inr ⟨by omega, h.1⟩
     · omega)

/-- MinHeap._heapifyDown: sift down, swapping with the smaller of the
two children while one is below the current element. -/
def heapifyDown (a : List Int) (i : Nat) : List Int :=
  if h : hdSmallest a i ≠ i then
    heapifyDown (listSwap a i (hdSmallest a i)) (hdSmallest a i)
  else a
termination_by a.length - i
decreasing_by
  simp only [listSwap, List.length_set]
  rcases hdSmallest_cases a i with hc | hc
  · exact absurd hc h
  · omega

/-- State of a MinHeap instance. -/
structure MinHeap where
  array : List Int
  nodeCount : Nat
deriving DecidableEq

/-- Fresh MinHeap. -/
def MinHeap.init : MinHeap := ⟨[], 0⟩

/-- MinHeap.insert: append, heapify up from the last slot, emit
NODE_INSERTED. -/
def MinHeap.insert (s : MinHeap) (value : Int) : MinHeap × List (TreeEvent Int MinHeap) :=
  let a2 := heapifyUp (s.array ++ [value]) s.array.length
  let s2 : MinHeap := ⟨a2, s.nodeCount + 1⟩
  (s2, [TreeEvent.nodeInserted value s2])

/-- MinHeap.delete (no argument): false on an empty heap; otherwise move
the last element into the root slot, shrink, sift down, emit
NODE_DELETED with the removed minimum. -/
def MinHeap.delete (s : MinHeap) : Bool × MinHeap × List (TreeEvent Int MinHeap) :=
  if s.array.isEmpty then (false, s, [])
  else
    let minV := s.array.getD 0 0
    let last := s.array.getLastD 0
    let rest := s.array.dropLast
    let a2 := if 0 < rest.length then heapifyDown (rest.set 0 last) 0 else rest
    let s2 : MinHeap := ⟨a2, s.nodeCount - 1⟩
    (true, s2, [TreeEvent.nodeDeleted minV s2])

/-- One insert or delete() call on the Min-Heap. -/
inductive HeapOp where
  | ins (value : Int)
  | del

/-- Apply a sequence of MinHeap.insert / MinHeap.delete calls. -/
def MinHeap.applyOps (s : MinHeap) : List HeapOp → MinHeap
  | [] => s
  | HeapOp.ins v :: rest => MinHeap.applyOps (MinHeap.insert s v).1 rest
  | HeapOp.del :: rest => MinHeap.applyOps (MinHeap.delete s).2.1 rest

/-- Sequence of MinHeap.insert calls. -/
def MinHeap.insertList (s : MinHeap) (vs : List Int) : MinHeap :=
  vs.foldl (fun a v => (MinHeap.insert a v).1) s

/-- Values returned (as NODE_DELETED payloads) by n successive
delete-minimum calls. -/
def MinHeap.deleteRun (s : MinHeap) : Nat → List Int
  | 0 => []
  | n + 1 =>
    if s.array.isEmpty then []
    else s.array.getD 0 0 :: MinHeap.deleteRun (MinHeap.delete s).2.1 n

/-! ## Fenwick Tree (trees/FenwickTree.js)

Both arrays hold parseInt results, hence plain Int entries.  The derived
visualization forest is rebuilt from tree and data on each insert and is
not part of the algorithmic state. -/

/-- JS i & (-i) on a 32-bit integer: bitwise AND with the two's
complement, the lowest set bit for 0 < i < 2^32. -/
def lowbit (i : Nat) : Nat :=
  i &&& (2 ^ 32 - i)

/-- FenwickTree._updateBIT: add delta at index, stepping
index += lowbit(index) while inside the array.  On index 0 the JS loop
would never terminate; every call site passes index ≥ 1, where lowbit
is positive, so the stopped branch is unreachable. -/
def updateBIT (tree : List Int) (index : Nat) (delta : Int) : List Int :=
  if h1 : index < tree.length then
    let t2 := tree.set index (tree.getD index 0 + delta)
    if h2 : 0 < lowbit index then updateBIT t2 (index + lowbit index) delta
    else t2
  else tree
termination_by tree.length - index
decreasing_by simp only [List.length_set]; omega

/-- FenwickTree.query: prefix-sum walk i -= lowbit(i) while i > 0; the
same unreachable-stop guard as updateBIT for lowbit 0. -/
def queryBIT (tree : List Int) (i : Nat) : Int :=
  if h1 : 0 < i then
    if h2 : 0 < lowbit i then tree.getD i 0 + queryBIT tree (i - lowbit i)
    else tree.getD i 0
  else 0
termination_by i
decreasing_by omega

/-- State of a FenwickTree instance. -/
structure FenwickTree where
  tree : List Int
  data : List Int
  nodeCount : Nat
deriving DecidableEq

/-- Fresh FenwickTree: tree [0] (1-based, index 0 a dummy), empty data. -/
def FenwickTree.init : FenwickTree := ⟨[0], [], 0⟩

/-- FenwickTree.insert: push to data, grow the BIT array by one zero
slot when needed, then point-update at the new 1-based index. -/
def FenwickTree.insert (s : FenwickTree) (value : Int) :
    FenwickTree × List (TreeEvent Int FenwickTree) :=
  let data2 := s.data ++ [value]
  let index := data2.length
  let tree1 := if s.tree.length ≤ index then s.tree ++ [0] else s.tree
  let s2 : FenwickTree := ⟨updateBIT tree1 index value, data2, s.nodeCount + 1⟩
  (s2, [])

/-- FenwickTree.query on the instance state. -/
def FenwickTree.query (s : FenwickTree) (index : Nat) : Int :=
  queryBIT s.tree index

/-- FenwickTree.delete: warn and return false, touching nothing. -/
def FenwickTree.delete (s : FenwickTree) (_value : Int) :
    Bool × FenwickTree × List (TreeEvent Int FenwickTree) :=
  (false, s, [])

/-- Sequence of FenwickTree.insert calls. -/
def FenwickTree.insertList (s : FenwickTree) (vs : List Int) : FenwickTree :=
  vs.foldl (fun a v => (FenwickTree.insert a v).1) s

/-! ## Segment Tree (trees/SegmentTree.js) -/

/-- Node of the derived sum tree: value plus the covered index range
(start and last, both inclusive). -/
inductive SegNode where
  | leaf (value : Int) (idx : Nat)
  | inner (value : Int) (lo hi : Nat) (left right : SegNode)
deriving DecidableEq

/-- Sum stored at a segment node. -/
def SegNode.val : SegNode → Int
  | SegNode.leaf v _ => v
  | SegNode.inner v _ _ _ _ => v

/-- SegmentTree._buildRecursive over data[lo..hi] (hi inclusive):
midpoint split, leaves carry data values, inner nodes the children sum. -/
def segBuild (data : List Int) (lo hi : Nat) : SegNode :=
  if h : lo < hi then
    let mid := (lo + hi) / 2
    let l := segBuild data lo mid
    let r := segBuild data (mid + 1) hi
    SegNode.inner (l.val + r.val) lo hi l r
  else SegNode.leaf (data.getD lo 0) lo
termination_by hi - lo
decreasing_by all_goals omega

/-- State of a SegmentTree instance. -/
structure SegmentTree where
  data : List Int
  root : Option SegNode
  nodeCount : Nat
deriving DecidableEq

/-- Fresh SegmentTree. -/
def SegmentTree.init : SegmentTree := ⟨[], none, 0⟩

/-- SegmentTree.buildTree: null root when data is empty, full rebuild
otherwise. -/
def SegmentTree.buildTree (data : List Int) : Option SegNode :=
  if data.isEmpty then none else some (segBuild data 0 (data.length - 1))

/-- SegmentTree.insert: append, set nodeCount to the data length, rebuild. -/
def SegmentTree.insert (s : SegmentTree) (value : Int) :
    SegmentTree × List (TreeEvent Int SegmentTree) :=
  let data2 := s.data ++ [value]
  (⟨data2, SegmentTree.buildTree data2, data2.length⟩, [])

/-- SegmentTree.delete: warn and return false, touching nothing. -/
def SegmentTree.delete (s : SegmentTree) (_value : Int) :
    Bool × SegmentTree × List (TreeEvent Int SegmentTree) :=
  (false, s, [])

/-! ## Multi-key nodes (BTreeNode in BTree.js, BPlusTreeNode in BPlusTree.js)

Both node classes carry an ordered key array, an ordered child array and
an isLeaf flag.  The B+ leaf next-pointer chain is omitted: it is only
read by the B+ in-order traversal, which no verified operation uses. -/

inductive MKNode where
  | mk (keys : List JSVal) (children : List MKNode) (isLeaf : Bool)

/-- Key array of a node. -/
def MKNode.keys : MKNode → List JSVal
  | MKNode.mk k _ _ => k

/-- Child array of a node. -/
def MKNode.children : MKNode → List MKNode
  | MKNode.mk _ c _ => c

/-- Leaf flag of a node. -/
def MKNode.leafFlag : MKNode → Bool
  | MKNode.mk _ _ f => f

/-- Child access x.children[i].  Out of bounds JS yields undefined and
the algorithms would throw on first use; all verified call sites are in
bounds, and the dummy empty leaf below is returned there instead. -/
def getChild (l : List MKNode) (i : Nat) : MKNode :=
  l.getD i (MKNode.mk [] [] true)

/-- Number of node objects in a subtree (termination measure only). -/
def MKNode.bsize : MKNode → Nat
  | MKNode.mk _ cs _ => 1 + (cs.attach.map (fun c => MKNode.bsize c.1)).sum
termination_by x => sizeOf x
decreasing_by
  have h := List.sizeOf_lt_of_mem c.2
  simp only [MKNode.mk.sizeOf_spec]
  omega

/-- Termination measure for the descending insert: internal nodes sit
strictly above every node reachable by one descent step. -/
def insMeasure (x : MKNode) : Nat :=
  MKNode.bsize x + (if x.leafFlag then 0 else 1)

theorem bsize_pos (x : MKNode) : 1 ≤ MKNode.bsize x := by
  cases x with
  | mk k cs f => simp [MKNode.bsize]

theorem bsize_lt_of_mem {c : MKNode} {cs : List MKNode} (h : c ∈ cs)
    (k : List JSVal) (f : Bool) : MKNode.bsize c < MKNode.bsize (MKNode.mk k cs f) := by
  have hmem : MKNode.bsize c ∈ (cs.attach.map (fun c => MKNode.bsize c.1)) :=
    List.mem_map.2 ⟨⟨c, h⟩, List.mem_attach _ _, rfl⟩
  have hle : MKNode.bsize c ≤ (cs.attach.map (fun c => MKNode.bsize c.1)).sum :=
    List.single_le_sum (fun _ _ => Nat.zero_le _) _ hmem
  simp only [MKNode.bsize]
  omega

theorem bsize_le_of_sublist {cs1 cs2 : List MKNode} (h : cs1.Sublist cs2)
    (k1 k2 : List JSVal) (f1 f2 : Bool) :
    MKNode.bsize (MKNode.mk k1 cs1 f1) ≤ MKNode.bsize (MKNode.mk k2 cs2 f2) := by
  simp only [MKNode.bsize]
  have : (cs1.attach.map (fun c => MKNode.bsize c.1)).sum ≤
      (cs2.attach.map (fun c => MKNode.bsize c.1)).sum := by
    rw [List.attach_map_coe, List.attach_map_coe]
    exact (h.map MKNode.bsize).sum_le_sum (fun _ _ => Nat.zero_le _)
  omega

theorem insMeasure_lt_of_mem {c : MKNode} {cs : List MKNode} (h : c ∈ cs)
    (k : List JSVal) : insMeasure c < insMeasure (MKNode.mk k cs false) := by
  have h2 := bsize_lt_of_mem h k false
  unfold insMeasure
  cases c.leafFlag <;> simp [MKNode.leafFlag] <;> omega

theorem getChild_mem_or_default (l : List MKNode) (i : Nat) :
    getChild l i ∈ l ∨ getChild l i = MKNode.mk [] [] true := by
  unfold getChild
  rcases Nat.lt_or_ge i l.length with h | h
  · exact Or.inl (by rw [List.getD_eq_getElem _ _ h]; exact List.getElem_mem h)
  · exact Or.inr (List.getD_eq_default _ _ h)

/-! ## B-Tree (trees/BTree.js) -/

/-- Index i after the descent loop of _insertNonFull: number of scanned
keys (from the right, while value < keys[i]) subtracted from the length. -/
def countGtSuffix (value : JSVal) : List JSVal → Nat
  | [] => 0
  | k :: ks => if jlt value k then 1 + countGtSuffix value ks else 0

/-- Final index i (after i++) of the internal-node descent loop. -/
def descendIndex (keys : List JSVal) (value : JSVal) : Nat :=
  keys.length - countGtSuffix value keys.reverse

/-- Right-to-left scan of the leaf insertion loop: shift keys greater
than value one slot right, drop value into the gap (list reversed). -/
def leafInsRev (value : JSVal) : List JSVal → List JSVal
  | [] => [value]
  | k :: ks => if jlt value k then k :: leafInsRev value ks else value :: k :: ks

/-- Net effect of the leaf branch of _insertNonFull on the key array. -/
def jsLeafInsert (keys : List JSVal) (value : JSVal) : List JSVal :=
  (leafInsRev value keys.reverse).reverse

/-- BTree._splitChild: move the upper t-1 keys (and upper t children) of
y = x.children[i] to a new sibling z, truncate y, link z at i+1, and
promote y.keys[t-1] into x.keys[i].  The promotion reads y.keys AFTER
the truncation to length t-1, so the promoted separator is undefined. -/
def btSplitChild (t : Nat) (x : MKNode) (i : Nat) : MKNode :=
  match x with
  | MKNode.mk xkeys xchildren xleaf =>
    match getChild xchildren i with
    | MKNode.mk ykeys ychildren yleaf =>
      let zkeys := (List.range (t - 1)).map (fun j => jsGet ykeys (j + t))
      let zchildren := if yleaf then [] else (ychildren.drop t).take t
      let z := MKNode.mk zkeys zchildren yleaf
      let ykeys2 := jsTruncate ykeys (t - 1)
      let y2 := MKNode.mk ykeys2 (if yleaf then [] else jsTruncate ychildren t) yleaf
      let xc2 := jsInsertAt (xchildren.set i y2) (i + 1) z
      let xk2 := jsInsertAt xkeys i (jsGet ykeys2 (t - 1))
      MKNode.mk xk2 xc2 xleaf

theorem mem_jsInsertAt {c z : α} {l : List α} {i : Nat}
    (h : c ∈ jsInsertAt l i z) : c = z ∨ c ∈ l := by
  simp only [jsInsertAt, List.mem_append, List.mem_singleton] at h
  rcases h with (h | h) | h
  · exact Or.inr (List.mem_of_mem_take h)
  · exact Or.inl h
  · exact Or.inr (List.mem_of_mem_drop h)

theorem insMeasure_piece_lt (children : List MKNode) (i : Nat) (keys k2 : List JSVal)
    {ykeys : List JSVal} {ychildren : List MKNode} {yleaf : Bool}
    (hy : getChild children i = MKNode.mk ykeys ychildren yleaf)
    {cs2 : List MKNode} (hsub : cs2.Sublist ychildren) :
    insMeasure (MKNode.mk k2 cs2 yleaf) < insMeasure (MKNode.mk keys children false) := by
  rcases getChild_mem_or_default children i with hm | hd
  · rw [hy] at hm
    have h1 : MKNode.bsize (MKNode.mk k2 cs2 yleaf) ≤
        MKNode.bsize (MKNode.mk ykeys ychildren yleaf) :=
      bsize_le_of_sublist hsub _ _ _ _
    have h2 := bsize_lt_of_mem hm keys false
    cases yleaf <;> simp [insMeasure, MKNode.leafFlag] <;> omega
  · rw [hy] at hd
    injection hd with e1 e2 e3
    subst e2
    subst e3
    have hnil : cs2 = [] := List.sublist_nil.mp hsub
    subst hnil
    have hpos := bsize_pos (MKNode.mk keys children false)
    have hz : MKNode.bsize (MKNode.mk k2 [] true) = 1 := by
      simp [MKNode.bsize]
    simp only [insMeasure, MKNode.leafFlag, hz]
    simp
    omega

theorem btSplitChild_child_measure (t : Nat) (keys : List JSVal)
    (children : List MKNode) (i : Nat) {c : MKNode}
    (h : c ∈ (btSplitChild t (MKNode.mk keys children false) i).children) :
    insMeasure c < insMeasure (MKNode.mk keys children false) := by
  cases hgc : getChild children i with
  | mk ykeys ychildren yleaf =>
    simp only [btSplitChild, hgc, MKNode.children] at h
    rcases mem_jsInsertAt h with hz | hmem
    · subst hz
      refine insMeasure_piece_lt children i keys _ hgc ?_
      cases yleaf
      · simp only [Bool.false_eq_true, if_false]
        exact ((ychildren.drop t).take_sublist t).trans (ychildren.drop_sublist t)
      · simp only [if_true]
        exact List.nil_sublist _
    · rcases List.mem_or_eq_of_mem_set hmem with hmem2 | hy2
      · exact insMeasure_lt_of_mem hmem2 keys
      · subst hy2
        refine insMeasure_piece_lt children i keys _ hgc ?_
        cases yleaf
        · simp only [Bool.false_eq_true, if_false, jsTruncate]
          exact ychildren.take_sublist t
        · simp only [if_true]
          exact List.nil_sublist _

theorem insMeasure_default_lt (keys : List JSVal) (children : List MKNode) :
    insMeasure (MKNode.mk [] [] true) < insMeasure (MKNode.mk keys children false) := by
  have hpos := bsize_pos (MKNode.mk keys children false)
  have hz : MKNode.bsize (MKNode.mk [] [] true) = 1 := by simp [MKNode.bsize]
  simp only [insMeasure, MKNode.leafFlag, hz]
  simp
  omega

/-- BTree._insertNonFull: insert into a leaf by right-to-left shifting;
at an internal node find the child index, split it first when full
(re-reading the possibly shifted separator), then descend. -/
def btInsertNonFull (t : Nat) (x : MKNode) (value : JSVal) : MKNode :=
  match x with
  | MKNode.mk keys children true => MKNode.mk (jsLeafInsert keys value) children true
  | MKNode.mk keys children false =>
    let i := descendIndex keys value
    if (getChild children i).keys.length = 2 * t - 1 then
      let x2 := btSplitChild t (MKNode.mk keys children false) i
      let i2 := if jgt value (jsGet x2.keys i) then i + 1 else i
      MKNode.mk x2.keys
        (x2.children.set i2 (btInsertNonFull t (getChild x2.children i2) value)) x2.leafFlag
    else
      MKNode.mk keys (children.set i (btInsertNonFull t (getChild children i) value)) false
termination_by insMeasure x
decreasing_by
  · rcases getChild_mem_or_default
        (btSplitChild t (MKNode.mk keys children false) i).children i2 with hm | hd
    · exact btSplitChild_child_measure t keys children i hm
    · rw [hd]; exact insMeasure_default_lt keys children
  · rcases getChild_mem_or_default children i with hm | hd
    · exact insMeasure_lt_of_mem hm keys
    · rw [hd]; exact insMeasure_default_lt keys children

/-- State of a BTree instance (constructor argument t kept in the state). -/
structure BTree where
  root : Option MKNode
  t : Nat
  nodeCount : Nat

/-- Fresh BTree of minimum degree t. -/
def BTree.init (t : Nat) : BTree := ⟨none, t, 0⟩

/-- BTree.insert: create a root leaf on the empty tree; split a full
root under a fresh parent first; then descend with _insertNonFull.
nodeCount is always incremented; no notification is emitted. -/
def BTree.insert (s : BTree) (value : Int) : BTree × List (TreeEvent Int BTree) :=
  match s.root with
  | none =>
    (⟨some (MKNode.mk (jsSet [] 0 (some value)) [] true), s.t, s.nodeCount + 1⟩, [])
  | some r =>
    if r.keys.length = 2 * s.t - 1 then
      let sNew := MKNode.mk [] [r] false
      let sSplit := btSplitChild s.t sNew 0
      (⟨some (btInsertNonFull s.t sSplit (some value)), s.t, s.nodeCount + 1⟩, [])
    else
      (⟨some (btInsertNonFull s.t r (some value)), s.t, s.nodeCount + 1⟩, [])

/-- BTree.delete: warn and return false, touching nothing. -/
def BTree.delete (s : BTree) (_value : Int) : Bool × BTree × List (TreeEvent Int BTree) :=
  (false, s, [])

/-- Sequence of BTree.insert calls. -/
def BTree.insertList (s : BTree) (vs : List Int) : BTree :=
  vs.foldl (fun a v => (BTree.insert a v).1) s

/-! ## B+ Tree (trees/BPlusTree.js) -/

/-- BPlusTree._splitChild.  Leaf branch: an initial loop copies
y.keys[t..2t-2] into z, y.keys is truncated to length t, a second loop
overwrites z from pivotIndex t-1 while in bounds of the truncated y
(only z.keys[0] = y.keys[t-1] survives the bound check), y.keys is cut
to t-1, z is linked at i+1 and z.keys[0] is copied into x.keys[i].
Internal branch: as in BTree, including the out-of-bounds read of
y.keys[t-1] after truncation, which promotes undefined. -/
def bpSplitChild (t : Nat) (x : MKNode) (i : Nat) : MKNode :=
  match x with
  | MKNode.mk xkeys xchildren xleaf =>
    match getChild xchildren i with
    | MKNode.mk ykeys ychildren yleaf =>
      if yleaf then
        let zkeys0 := (List.range (t - 1)).map (fun j => jsGet ykeys (j + t))
        let ykeysA := jsTruncate ykeys t
        let zkeys := (List.range t).foldl
          (fun zk j => if t - 1 + j < ykeysA.length
            then jsSet zk j (jsGet ykeysA (t - 1 + j)) else zk) zkeys0
        let z := MKNode.mk zkeys [] true
        let ykeysB := jsTruncate ykeysA (t - 1)
        let y2 := MKNode.mk ykeysB ychildren yleaf
        let xc2 := jsInsertAt (xchildren.set i y2) (i + 1) z
        let xk2 := jsInsertAt xkeys i (jsGet zkeys 0)
        MKNode.mk xk2 xc2 xleaf
      else
        let zkeys := (List.range (t - 1)).map (fun j => jsGet ykeys (j + t))
        let zchildren := (ychildren.drop t).take t
        let z := MKNode.mk zkeys zchildren yleaf
        let ykeys2 := jsTruncate ykeys (t - 1)
        let y2 := MKNode.mk ykeys2 (jsTruncate ychildren t) yleaf
        let xc2 := jsInsertAt (xchildren.set i y2) (i + 1) z
        let xk2 := jsInsertAt xkeys i (jsGet ykeys2 (t - 1))
        MKNode.mk xk2 xc2 xleaf

theorem bpSplitChild_child_measure (t : Nat) (keys : List JSVal)
    (children : List MKNode) (i : Nat) {c : MKNode}
    (h : c ∈ (bpSplitChild t (MKNode.mk keys children false) i).children) :
    insMeasure c < insMeasure (MKNode.mk keys children false) := by
  cases hgc : getChild children i with
  | mk ykeys ychildren yleaf =>
    cases yleaf
    · simp only [bpSplitChild, hgc, Bool.false_eq_true, if_false, MKNode.children] at h
      rcases mem_jsInsertAt h with hz | hmem
      · subst hz
        exact insMeasure_piece_lt children i keys _ hgc
          (((ychildren.drop t).take_sublist t).trans (ychildren.drop_sublist t))
      · rcases List.mem_or_eq_of_mem_set hmem with hmem2 | hy2
        · exact insMeasure_lt_of_mem hmem2 keys
        · subst hy2
          exact insMeasure_piece_lt children i keys _ hgc (ychildren.take_sublist t)
    · simp only [bpSplitChild, hgc, if_true, MKNode.children] at h
      rcases mem_jsInsertAt h with hz | hmem
      · subst hz
        exact insMeasure_piece_lt children i keys _ hgc (List.nil_sublist _)
      · rcases List.mem_or_eq_of_mem_set hmem with hmem2 | hy2
        · exact insMeasure_lt_of_mem hmem2 keys
        · subst hy2
          exact insMeasure_piece_lt children i keys _ hgc (List.Sublist.refl _)

/-- BPlusTree._insertNonFull: like the B-Tree version, except that after
a split the descent also moves right on strict equality with the
re-read separator. -/
def bpInsertNonFull (t : Nat) (x : MKNode) (value : JSVal) : MKNode :=
  match x with
  | MKNode.mk keys children true => MKNode.mk (jsLeafInsert keys value) children true
  | MKNode.mk keys children false =>
    let i := descendIndex keys value
    if (getChild children i).keys.length = 2 * t - 1 then
      let x2 := bpSplitChild t (MKNode.mk keys children false) i
      let i2 :=
        if jgt value (jsGet x2.keys i) then i + 1
        else if jeqJS value (jsGet x2.keys i) then i + 1
        else i
      MKNode.mk x2.keys
        (x2.children.set i2 (bpInsertNonFull t (getChild x2.children i2) value)) x2.leafFlag
    else
      MKNode.mk keys (children.set i (bpInsertNonFull t (getChild children i) value)) false
termination_by insMeasure x
decreasing_by
  · rcases getChild_mem_or_default
        (bpSplitChild t (MKNode.mk keys children false) i).children i2 with hm | hd
    · exact bpSplitChild_child_measure t keys children i hm
    · rw [hd]; exact insMeasure_default_lt keys children
  · rcases getChild_mem_or_default children i with hm | hd
    · exact insMeasure_lt_of_mem hm keys
    · rw [hd]; exact insMeasure_default_lt keys children

/-- State of a BPlusTree instance. -/
structure BPlusTree where
  root : Option MKNode
  t : Nat
  nodeCount : Nat

/-- Fresh BPlusTree of minimum degree t. -/
def BPlusTree.init (t : Nat) : BPlusTree := ⟨none, t, 0⟩

/-- BPlusTree.insert, same top-level shape as BTree.insert; emits
nothing. -/
def BPlusTree.insert (s : BPlusTree) (value : Int) :
    BPlusTree × List (TreeEvent Int BPlusTree) :=
  match s.root with
  | none =>
    (⟨some (MKNode.mk (jsSet [] 0 (some value)) [] true), s.t, s.nodeCount + 1⟩, [])
  | some r =>
    if r.keys.length = 2 * s.t - 1 then
      let sNew := MKNode.mk [] [r] false
      let sSplit := bpSplitChild s.t sNew 0
      (⟨some (bpInsertNonFull s.t sSplit (some value)), s.t, s.nodeCount + 1⟩, [])
    else
      (⟨some (bpInsertNonFull s.t r (some value)), s.t, s.nodeCount + 1⟩, [])

/-- BPlusTree.delete: warn and return false, touching nothing. -/
def BPlusTree.delete (s : BPlusTree) (_value : Int) :
    Bool × BPlusTree × List (TreeEvent Int BPlusTree) :=
  (false, s, [])

/-- Sequence of BPlusTree.insert calls. -/
def BPlusTree.insertList (s : BPlusTree) (vs : List Int) : BPlusTree :=
  vs.foldl (fun a v => (BPlusTree.insert a v).1) s

/-! ## Trie (trees/Trie.js)

TrieNode keeps a Map from character to child and an isEndOfWord flag;
the character label and visual fields are display-only.  The Map is an
insertion-ordered association list, like a JS Map. -/

inductive TrieNode where
  | mk (children : List (Char × TrieNode)) (isEnd : Bool)

/-- Child map of a trie node. -/
def TrieNode.children : TrieNode → List (Char × TrieNode)
  | TrieNode.mk m _ => m

/-- isEndOfWord flag. -/
def TrieNode.isEnd : TrieNode → Bool
  | TrieNode.mk _ e => e

/-- Map.has. -/
def mapHas (m : List (Char × TrieNode)) (c : Char) : Bool :=
  m.any (fun p => p.1 = c)

/-- Map.get (undefined when absent). -/
def mapGet (m : List (Char × TrieNode)) (c : Char) : Option TrieNode :=
  (m.find? (fun p => p.1 = c)).map (fun p => p.2)

/-- Map.set: overwrite in place when the key exists, append otherwise. -/
def mapSet (m : List (Char × TrieNode)) (c : Char) (n : TrieNode) :
    List (Char × TrieNode) :=
  if mapHas m c then m.map (fun p => if p.1 = c then (c, n) else p)
  else m ++ [(c, n)]

/-- Walk of Trie.insert below the root: create missing children,
counting created nodes, and mark the terminal flag at the end; the
returned Bool tells whether the flag was newly set (wordCount++). -/
def trieInsertWalk : TrieNode → List Char → TrieNode × Nat × Bool
  | TrieNode.mk m e, [] =>
    if e then (TrieNode.mk m e, 0, false) else (TrieNode.mk m true, 0, true)
  | TrieNode.mk m e, c :: rest =>
    let created : Nat := if mapHas m c then 0 else 1
    let child := match mapGet m c with
      | some n => n
      | none => TrieNode.mk [] false
    let r := trieInsertWalk child rest
    (TrieNode.mk (mapSet m c r.1) e, created + r.2.1, r.2.2)

/-- Walk shared by Trie.search and Trie.startsWith: the node reached by
the character chain, none on a missing link. -/
def trieWalk : TrieNode → List Char → Option TrieNode
  | n, [] => some n
  | TrieNode.mk m _, c :: rest =>
    match mapGet m c with
    | some child => trieWalk child rest
    | none => none

/-- State of a Trie instance.  root is an Option because TreeBase.clear
writes null into it. -/
structure Trie where
  root : Option TrieNode
  nodeCount : Nat
  wordCount : Nat

/-- Fresh Trie: a ROOT node with an empty child map. -/
def Trie.init : Trie := ⟨some (TrieNode.mk [] false), 0, 0⟩

/-- Trie.clear: the override first installs a fresh root and zeroes the
counters, then super.clear() (TreeBase.clear) overwrites root with null
and emits TREE_RESET. -/
def Trie.clear (s : Trie) : Trie × List (TreeEvent (List Char) Trie) :=
  let s1 : Trie := ⟨some (TrieNode.mk [] false), 0, 0⟩
  let s2 : Trie := ⟨none, 0, s1.wordCount⟩
  (s2, [TreeEvent.treeReset s2])

/-- Trie.insert.  Empty input is rejected with an alert and no change;
otherwise the walk starts at this.root, so a null root (after clear)
throws on the first children access, modelled as Except.error. -/
def Trie.insert (s : Trie) (word : List Char) :
    Except Unit (Trie × List (TreeEvent (List Char) Trie)) :=
  if word.isEmpty then Except.ok (s, [])
  else
    let w := word.map Char.toLower
    match s.root with
    | none => Except.error ()
    | some r =>
      let p := trieInsertWalk r w
      let s2 : Trie := ⟨some p.1, s.nodeCount + p.2.1,
        s.wordCount + (if p.2.2 then 1 else 0)⟩
      Except.ok (s2, [TreeEvent.nodeInserted w s2])

/-- Trie.search: null for empty input before anything else; with a null
root and a non-empty word the loop throws on the first children access. -/
def Trie.search (s : Trie) (word : List Char) :
    Except Unit (Option TrieNode × List (TreeEvent (List Char) Trie)) :=
  if word.isEmpty then Except.ok (none, [])
  else
    let w := word.map Char.toLower
    match s.root with
    | none => Except.error ()
    | some r =>
      match trieWalk r w with
      | none => Except.ok (none, [TreeEvent.nodeSearched w false s])
      | some n =>
        if n.isEnd then Except.ok (some n, [TreeEvent.nodeSearched w true s])
        else Except.ok (none, [TreeEvent.nodeSearched w false s])

/-- Trie.startsWith: no empty-input guard; an empty prefix never touches
the root and returns true, a non-empty prefix dereferences the root. -/
def Trie.startsWith (s : Trie) (pre : List Char) : Except Unit Bool :=
  let w := pre.map Char.toLower
  match w with
  | [] => Except.ok true
  | _ :: _ =>
    match s.root with
    | none => Except.error ()
    | some r => Except.ok (trieWalk r w).isSome

/-! ## Claim C1: Fenwick prefix sums -/

theorem lowbit_one : lowbit 1 = 1 := by decide

theorem lowbit_two : lowbit 2 = 2 := by decide

/-- C1: the claim says query(i) after inserting [a1..an] returns
a1+...+ai for every 1 ≤ i ≤ n.  The code violates it: _updateBIT never
propagates earlier values into the freshly pushed BIT slot, so after
inserting [1, 1] the array is data = [1, 1] but query(2) evaluates to 1,
not the prefix sum 1 + 1 = 2. -/
theorem C1_fenwick_query_not_prefix_sum :
    (FenwickTree.insertList FenwickTree.init [1, 1]).data = [1, 1] ∧
    FenwickTree.query (FenwickTree.insertList FenwickTree.init [1, 1]) 2 = 1 ∧
    ((FenwickTree.insertList FenwickTree.init [1, 1]).data.take 2).sum = 2 ∧
    FenwickTree.query (FenwickTree.insertList FenwickTree.init [1, 1]) 2 ≠
      ((FenwickTree.insertList FenwickTree.init [1, 1]).data.take 2).sum := by
  have h1 : updateBIT [0, 0] 1 1 = [0, 1] := by
    rw [updateBIT]
    norm_num [lowbit_one]
    rw [updateBIT]
    norm_num
  have h2 : updateBIT [0, 1, 0] 2 1 = [0, 1, 1] := by
    rw [updateBIT]
    norm_num [lowbit_two]
    rw [updateBIT]
    norm_num
  have hq : queryBIT [0, 1, 1] 2 = 1 := by
    rw [queryBIT]
    norm_num [lowbit_two]
    rw [queryBIT]
    norm_num
  have hstate : FenwickTree.insertList FenwickTree.init [1, 1] =
      ⟨[0, 1, 1], [1, 1], 2⟩ := by
    simp [FenwickTree.insertList, FenwickTree.insert, FenwickTree.init, h1, h2]
  rw [hstate]
  simp [FenwickTree.query, hq]

/-! ## Claim C3: unsupported delete is a clean failure -/

/-- C3: delete on Segment Tree, Fenwick Tree, B-Tree and B+ Tree returns
false, terminates normally (the model functions are total), emits
nothing and leaves every state field (data, node graph, count)
unchanged. -/
theorem C3_unsupported_delete_returns_false_unchanged :
    (∀ (s : SegmentTree) (v : Int), SegmentTree.delete s v = (false, s, [])) ∧
    (∀ (s : FenwickTree) (v : Int), FenwickTree.delete s v = (false, s, [])) ∧
    (∀ (s : BTree) (v : Int), BTree.delete s v = (false, s, [])) ∧
    (∀ (s : BPlusTree) (v : Int), BPlusTree.delete s v = (false, s, [])) :=
  ⟨fun _ _ => rfl, fun _ _ => rfl, fun _ _ => rfl, fun _ _ => rfl⟩

/-! ## Claim C10: Trie.clear leaves a null root -/

/-- C10 counterexample: the claim says EVERY subsequent insert, search
or startsWith call on the cleared trie dereferences the null root and
fails; but startsWith with an empty prefix never touches the root and
returns ok true, and search and insert with an empty word are rejected
before the root is read. -/
theorem C10_counterexample_empty_calls_do_not_fail :
    (Trie.clear Trie.init).1.root = none ∧
    Trie.startsWith (Trie.clear Trie.init).1 [] = Except.ok true ∧
    Trie.search (Trie.clear Trie.init).1 [] = Except.ok (none, []) ∧
    Trie.insert (Trie.clear Trie.init).1 [] =
      Except.ok ((Trie.clear Trie.init).1, []) :=
  ⟨rfl, rfl, rfl, rfl⟩

/-- C10 (amended): Trie.clear ends with the base-class clear overwriting
the freshly created root with null, and every subsequent insert, search
or startsWith call with a NON-EMPTY word dereferences the null root and
fails instead of operating on an empty trie. -/
theorem C10_cleared_trie_null_root_fails (s : Trie) (w : List Char) (hw : w ≠ []) :
    (Trie.clear s).1.root = none ∧
    Trie.insert (Trie.clear s).1 w = Except.error () ∧
    Trie.search (Trie.clear s).1 w = Except.error () ∧
    Trie.startsWith (Trie.clear s).1 w = Except.error () := by
  obtain ⟨c, rest, rfl⟩ : ∃ c rest, w = c :: rest := by
    cases w with
    | nil => exact absurd rfl hw
    | cons c rest => exact ⟨c, rest, rfl⟩
  exact ⟨rfl, rfl, rfl, rfl⟩

theorem C10_witness :
    (([ 'a' ] : List Char) ≠ []) ∧
    ((Trie.clear Trie.init).1.root = none ∧
     Trie.insert (Trie.clear Trie.init).1 [ 'a' ] = Except.error () ∧
     Trie.search (Trie.clear Trie.init).1 [ 'a' ] = Except.error () ∧
     Trie.startsWith (Trie.clear Trie.init).1 [ 'a' ] = Except.error ()) :=
  ⟨by decide, C10_cleared_trie_null_root_fails Trie.init [ 'a' ] (by decide)⟩

/-! ## Claim C4: completion notifications -/

/-- C4 counterexample: BTree.insert on the empty B-Tree completes and
adds an element (nodeCount 0 to 1, root created), yet emits no
notification at all, refuting the claim that every completed mutation
emits one. -/
theorem C4_counterexample_btree_insert_emits_nothing :
    (BTree.insert (BTree.init 2) 1).1.nodeCount = 1 ∧
    (BTree.insert (BTree.init 2) 1).1.root ≠ none ∧
    (BTree.insert (BTree.init 2) 1).2 = [] := by
  refine ⟨rfl, ?_, rfl⟩
  simp [BTree.insert, BTree.init]

theorem setBlack_ne_nil {t : BinTree} (h : t ≠ BinTree.nil) :
    setBlack t ≠ BinTree.nil := by
  cases t with
  | nil => exact absurd rfl h
  | node l v hh c r => simp [setBlack]

/-- C4 (amended): completed inserts on BST, AVL, Red-Black, Min-Heap and
Trie emit NODE_INSERTED with payload value and tree, and completed
deletes on BST, AVL and Min-Heap emit NODE_DELETED likewise; a
Red-Black delete emits NODE_DELETED only when it also leaves a non-null
root (deleting the last node is silent); B-Tree, B+ Tree, Fenwick and
Segment-Tree operations emit no notification at all. -/
theorem C4_notification_emission_by_structure :
    (∀ (s : BSTTree) (v : Int),
      (BSTTree.insert s v).2 = [TreeEvent.nodeInserted v (BSTTree.insert s v).1]) ∧
    (∀ (s : AVLTree) (v : Int),
      (AVLTree.insert s v).2 = [TreeEvent.nodeInserted v (AVLTree.insert s v).1]) ∧
    (∀ (s : RedBlackTree) (v : Int),
      (RedBlackTree.insert s v).2 =
        [TreeEvent.nodeInserted v (RedBlackTree.insert s v).1]) ∧
    (∀ (s : MinHeap) (v : Int),
      (MinHeap.insert s v).2 = [TreeEvent.nodeInserted v (MinHeap.insert s v).1]) ∧
    (∀ (s : Trie) (w : List Char) (r : TrieNode), s.root = some r → w ≠ [] →
      ∃ s2, Trie.insert s w =
        Except.ok (s2, [TreeEvent.nodeInserted (w.map Char.toLower) s2])) ∧
    (∀ (s : BSTTree) (v : Int),
      (BSTTree.delete s v).2.2 =
        if (BSTTree.delete s v).2.1.nodeCount < s.nodeCount
        then [TreeEvent.nodeDeleted v (BSTTree.delete s v).2.1] else []) ∧
    (∀ (s : AVLTree) (v : Int),
      (AVLTree.delete s v).2.2 =
        if (AVLTree.delete s v).2.1.nodeCount < s.nodeCount
        then [TreeEvent.nodeDeleted v (AVLTree.delete s v).2.1] else []) ∧
    (∀ (s : RedBlackTree) (v : Int),
      (RedBlackTree.delete s v).2.2 =
        if (RedBlackTree.delete s v).2.1.nodeCount < s.nodeCount ∧
           (RedBlackTree.delete s v).2.1.root ≠ BinTree.nil
        then [TreeEvent.nodeDeleted v (RedBlackTree.delete s v).2.1] else []) ∧
    (∀ s : MinHeap,
      (MinHeap.delete s).2.2 =
        if s.array.isEmpty then []
        else [TreeEvent.nodeDeleted (s.array.getD 0 0) (MinHeap.delete s).2.1]) ∧
    (∀ (s : BTree) (v : Int), (BTree.insert s v).2 = []) ∧
    (∀ (s : BPlusTree) (v : Int), (BPlusTree.insert s v).2 = []) ∧
    (∀ (s : FenwickTree) (v : Int), (FenwickTree.insert s v).2 = []) ∧
    (∀ (s : SegmentTree) (v : Int), (SegmentTree.insert s v).2 = []) := by
  refine ⟨?_, fun s v => rfl, fun s v => rfl, fun s v => rfl, ?_, ?_, ?_, ?_, ?_,
    ?_, ?_, fun s v => rfl, fun s v => rfl⟩
  · intro s v
    unfold BSTTree.insert
    split <;> rfl
  · intro s w r hr hw
    obtain ⟨c, rest, rfl⟩ : ∃ c rest, w = c :: rest := by
      cases w with
      | nil => exact absurd rfl hw
      | cons c rest => exact ⟨c, rest, rfl⟩
    simp only [Trie.insert, List.isEmpty_cons, hr]
    exact ⟨_, rfl⟩
  · intro s v
    unfold BSTTree.delete
    split <;> simp_all
  · intro s v
    unfold AVLTree.delete
    split <;> simp_all
  · intro s v
    by_cases hc : (rbSimpleBSTDelete s.root v s.nodeCount).2 < s.nodeCount ∧
        (rbSimpleBSTDelete s.root v s.nodeCount).1 ≠ BinTree.nil
    · simp only [RedBlackTree.delete, if_pos hc]
      try rw [if_pos ⟨hc.1, setBlack_ne_nil hc.2⟩]
    · simp only [RedBlackTree.delete, if_neg hc]
      try rw [if_neg hc]
  · intro s
    unfold MinHeap.delete
    split <;> simp_all
  · intro s v
    unfold BTree.insert
    cases s.root with
    | none => rfl
    | some r => simp only []; split <;> rfl
  · intro s v
    unfold BPlusTree.insert
    cases s.root with
    | none => rfl
    | some r => simp only []; split <;> rfl

theorem C4_witness :
    Trie.init.root = some (TrieNode.mk [] false) ∧
    (([ 'b' ] : List Char) ≠ []) ∧
    (∃ s2, Trie.insert Trie.init [ 'b' ] =
      Except.ok (s2, [TreeEvent.nodeInserted ([ 'b' ].map Char.toLower) s2])) :=
  ⟨rfl, by decide,
    C4_notification_emission_by_structure.2.2.2.2.1 Trie.init [ 'b' ]
      (TrieNode.mk [] false) rfl (by decide)⟩

/-! ## Claim C9: B+ Tree split policy

Chained single-insert evaluations of BPlusTree.insert on degree 2,
reaching the first full internal node (the root after inserting
1,2,...,8); inserting 9 then finds the root full and splits it as an
internal node. -/

theorem bp8_step1 : (BPlusTree.insert (BPlusTree.init 2) 1).1 =
    ⟨some (MKNode.mk [some 1] [] true), 2, 1⟩ := by
  simp [BPlusTree.insert, BPlusTree.init, jsSet]

theorem bp8_step2 : (BPlusTree.insert ⟨some (MKNode.mk [some 1] [] true), 2, 1⟩ 2).1 =
    ⟨some (MKNode.mk [some 1, some 2] [] true), 2, 2⟩ := by
  simp [BPlusTree.insert, bpInsertNonFull, jsLeafInsert, leafInsRev, jlt, MKNode.keys]

theorem bp8_step3 :
    (BPlusTree.insert ⟨some (MKNode.mk [some 1, some 2] [] true), 2, 2⟩ 3).1 =
    ⟨some (MKNode.mk [some 1, some 2, some 3] [] true), 2, 3⟩ := by
  simp [BPlusTree.insert, bpInsertNonFull, jsLeafInsert, leafInsRev, jlt, MKNode.keys]

theorem bp8_step4 :
    (BPlusTree.insert ⟨some (MKNode.mk [some 1, some 2, some 3] [] true), 2, 3⟩ 4).1 =
    ⟨some (MKNode.mk [some 2]
      [MKNode.mk [some 1] [] true, MKNode.mk [some 2, some 4] [] true] false), 2, 4⟩ := by
  have hr1 : List.range 1 = [0] := rfl
  have hr2 : List.range 2 = [0, 1] := rfl
  simp [BPlusTree.insert, bpInsertNonFull, bpSplitChild, descendIndex, countGtSuffix,
    jsLeafInsert, leafInsRev, jlt, jgt, jeqJS, jsGet, jsSet, jsInsertAt, jsTruncate,
    getChild, MKNode.keys, MKNode.children, MKNode.leafFlag, hr1, hr2,
    List.foldl, List.getD, List.set]

theorem bp8_step5 :
    (BPlusTree.insert ⟨some (MKNode.mk [some 2]
      [MKNode.mk [some 1] [] true, MKNode.mk [some 2, some 4] [] true] false), 2, 4⟩ 5).1 =
    ⟨some (MKNode.mk [some 2]
      [MKNode.mk [some 1] [] true, MKNode.mk [some 2, some 4, some 5] [] true] false),
      2, 5⟩ := by
  simp [BPlusTree.insert, bpInsertNonFull, descendIndex, countGtSuffix,
    jsLeafInsert, leafInsRev, jlt, jgt, jeqJS, jsGet, getChild,
    MKNode.keys, MKNode.children, MKNode.leafFlag, List.getD, List.set]

theorem bp8_step6 :
    (BPlusTree.insert ⟨some (MKNode.mk [some 2]
      [MKNode.mk [some 1] [] true, MKNode.mk [some 2, some 4, some 5] [] true] false),
      2, 5⟩ 6).1 =
    ⟨some (MKNode.mk [some 2, some 4]
      [MKNode.mk [some 1] [] true, MKNode.mk [some 2] [] true,
       MKNode.mk [some 4, some 6] [] true] false), 2, 6⟩ := by
  have hr1 : List.range 1 = [0] := rfl
  have hr2 : List.range 2 = [0, 1] := rfl
  simp [BPlusTree.insert, bpInsertNonFull, bpSplitChild, descendIndex, countGtSuffix,
    jsLeafInsert, leafInsRev, jlt, jgt, jeqJS, jsGet, jsSet, jsInsertAt, jsTruncate,
    getChild, MKNode.keys, MKNode.children, MKNode.leafFlag, hr1, hr2,
    List.foldl, List.getD, List.set]

theorem bp8_step7 :
    (BPlusTree.insert ⟨some (MKNode.mk [some 2, some 4]
      [MKNode.mk [some 1] [] true, MKNode.mk [some 2] [] true,
       MKNode.mk [some 4, some 6] [] true] false), 2, 6⟩ 7).1 =
    ⟨some (MKNode.mk [some 2, some 4]
      [MKNode.mk [some 1] [] true, MKNode.mk [some 2] [] true,
       MKNode.mk [some 4, some 6, some 7] [] true] false), 2, 7⟩ := by
  simp [BPlusTree.insert, bpInsertNonFull, descendIndex, countGtSuffix,
    jsLeafInsert, leafInsRev, jlt, jgt, jeqJS, jsGet, getChild,
    MKNode.keys, MKNode.children, MKNode.leafFlag, List.getD, List.set]

theorem bp8_step8 :
    (BPlusTree.insert ⟨some (MKNode.mk [some 2, some 4]
      [MKNode.mk [some 1] [] true, MKNode.mk [some 2] [] true,
       MKNode.mk [some 4, some 6, some 7] [] true] false), 2, 7⟩ 8).1 =
    ⟨some (MKNode.mk [some 2, some 4, some 6]
      [MKNode.mk [some 1] [] true, MKNode.mk [some 2] [] true,
       MKNode.mk [some 4] [] true, MKNode.mk [some 6, some 8] [] true] false), 2, 8⟩ := by
  have hr1 : List.range 1 = [0] := rfl
  have hr2 : List.range 2 = [0, 1] := rfl
  simp [BPlusTree.insert, bpInsertNonFull, bpSplitChild, descendIndex, countGtSuffix,
    jsLeafInsert, leafInsRev, jlt, jgt, jeqJS, jsGet, jsSet, jsInsertAt, jsTruncate,
    getChild, MKNode.keys, MKNode.children, MKNode.leafFlag, hr1, hr2,
    List.foldl, List.getD, List.set]

/-- C9: inserting 1..8 into a degree-2 B+ Tree makes the root a full
internal node with keys [2, 4, 6], so inserting 9 splits it under a
fresh parent exactly as modelled here.  The leaf half of the claim holds
(splitting the full leaf [10, 20, 30] copies the middle key 20 up while
it stays as the first key of the new right leaf); the internal half
fails: the split is applied to the full internal root below, the middle
key is 4, yet the parent receives the undefined separator [none] because
the code reads y.keys[t-1] after truncating y.keys to length t-1. -/
theorem C9_bplus_internal_split_promotes_undefined :
    (BPlusTree.insertList (BPlusTree.init 2) [1, 2, 3, 4, 5, 6, 7, 8]).root =
      some (MKNode.mk [some 2, some 4, some 6]
        [MKNode.mk [some 1] [] true, MKNode.mk [some 2] [] true,
         MKNode.mk [some 4] [] true, MKNode.mk [some 6, some 8] [] true] false) ∧
    jsGet [some 2, some 4, some 6] 1 = some 4 ∧
    (bpSplitChild 2 (MKNode.mk []
      [MKNode.mk [some 2, some 4, some 6]
        [MKNode.mk [some 1] [] true, MKNode.mk [some 2] [] true,
         MKNode.mk [some 4] [] true, MKNode.mk [some 6, some 8] [] true] false]
      false) 0).keys = [none] ∧
    (bpSplitChild 2 (MKNode.mk []
      [MKNode.mk [some 10, some 20, some 30] [] true] false) 0).keys = [some 20] ∧
    jsGet (getChild (bpSplitChild 2 (MKNode.mk []
      [MKNode.mk [some 10, some 20, some 30] [] true] false) 0).children 1).keys 0 =
      some 20 := by
  refine ⟨?_, by decide, by decide, by decide, by decide⟩
  show (BPlusTree.insert (BPlusTree.insert (BPlusTree.insert (BPlusTree.insert
    (BPlusTree.insert (BPlusTree.insert (BPlusTree.insert (BPlusTree.insert
      (BPlusTree.init 2) 1).1 2).1 3).1 4).1 5).1 6).1 7).1 8).1.root = _
  rw [bp8_step1, bp8_step2, bp8_step3, bp8_step4, bp8_step5, bp8_step6, bp8_step7,
    bp8_step8]

/-! ## Claims C7 and C8: Min-Heap -/

/-- Heap property of the backing array, exactly as the spec states it:
whenever a child index is inside the array, the parent is at most the
child. -/
def IsMinHeap (a : List Int) : Prop :=
  ∀ i j : Nat, j < a.length → (j = 2 * i + 1 ∨ j = 2 * i + 2) →
    a.getD i 0 ≤ a.getD j 0

/-- Heap property at every parent-child pair except those whose child is
the hole e (the element still sifting up). -/
def UpExcept (a : List Int) (e : Nat) : Prop :=
  ∀ i j : Nat, j < a.length → (j = 2 * i + 1 ∨ j = 2 * i + 2) → j ≠ e →
    a.getD i 0 ≤ a.getD j 0

/-- Skip-level property for sifting up: the parent of the hole already
bounds the children of the hole. -/
def UpSkip (a : List Int) (e : Nat) : Prop :=
  ∀ j : Nat, j < a.length → (j = 2 * e + 1 ∨ j = 2 * e + 2) →
    a.getD ((e - 1) / 2) 0 ≤ a.getD j 0

/-- Heap property at every pair except those whose parent is the hole e
(the element still sifting down). -/
def DownExcept (a : List Int) (e : Nat) : Prop :=
  ∀ i j : Nat, j < a.length → (j = 2 * i + 1 ∨ j = 2 * i + 2) → i ≠ e →
    a.getD i 0 ≤ a.getD j 0

/-- Skip-level property for sifting down. -/
def DownSkip (a : List Int) (e : Nat) : Prop :=
  0 < e → ∀ j : Nat, j < a.length → (j = 2 * e + 1 ∨ j = 2 * e + 2) →
    a.getD ((e - 1) / 2) 0 ≤ a.getD j 0

theorem listSwap_length (a : List Int) (i j : Nat) :
    (listSwap a i j).length = a.length := by
  simp [listSwap]

theorem listSwap_getD (a : List Int) (i j k : Nat) (hi : i < a.length)
    (hj : j < a.length) :
    (listSwap a i j).getD k 0 =
      if k = j then a.getD i 0 else if k = i then a.getD j 0 else a.getD k 0 := by
  simp only [listSwap, List.getD_eq_getElem?_getD, List.getElem?_set, List.length_set]
  by_cases hkj : j = k
  · subst hkj
    simp [hj]
  · rw [if_neg hkj, if_neg (fun h : k = j => hkj h.symm)]
    by_cases hki : i = k
    · subst hki
      simp [hi]
    · rw [if_neg hki, if_neg (fun h : k = i => hki h.symm)]

theorem listSwap_perm (a : List Int) (i j : Nat) (hi : i < a.length)
    (hj : j < a.length) : (listSwap a i j).Perm a := by
  have hxj : a.getD j 0 = a[j] := List.getD_eq_getElem _ _ hj
  have hxi : a.getD i 0 = a[i] := List.getD_eq_getElem _ _ hi
  rw [List.perm_iff_count]
  intro x
  have hlen : (a.set i a[j]).length = a.length := by simp
  have h2 := List.count_set a[i] x (a.set i a[j]) j (hlen ▸ hj)
  have h1 := List.count_set a[j] x a i hi
  have hset : (a.set i a[j])[j] = if i = j then a[j] else a[j] := by
    simp [List.getElem_set]
  rw [listSwap, hxi, hxj, h2, h1]
  rw [hset] at *
  simp only [ite_self] at *
  have hci : 0 < List.count a[i] a := List.count_pos_iff.2 (a.getElem_mem hi)
  have hcj : 0 < List.count a[j] a := List.count_pos_iff.2 (a.getElem_mem hj)
  simp only [beq_iff_eq]
  by_cases hbi : a[i] = x <;> by_cases hbj : a[j] = x <;>
    simp only [hbi, hbj, if_true, if_false]
  all_goals
    first
    | omega
    | (rw [hbi] at hci; omega)
    | (rw [hbj] at hcj; omega)

theorem heapifyUp_heap (e : Nat) : ∀ a : List Int, e < a.length →
    UpExcept a e → UpSkip a e → IsMinHeap (heapifyUp a e) := by
  induction e using Nat.strong_induction_on with
  | _ e IH =>
    intro a he hex hskip
    rw [heapifyUp]
    by_cases he0 : e = 0
    · subst he0
      rw [if_pos rfl]
      intro i j hj hc
      exact hex i j hj hc (by omega)
    · rw [if_neg he0]
      by_cases hlt : a.getD e 0 < a.getD ((e - 1) / 2) 0
      · rw [if_pos hlt]
        have hpe : (e - 1) / 2 < e := by omega
        have hplen : (e - 1) / 2 < a.length := by omega
        refine IH _ hpe _ (by rw [listSwap_length]; exact hplen) ?_ ?_
        · -- UpExcept after the swap, hole now at the parent
          intro i j hj hc hne
          rw [listSwap_length] at hj
          rw [listSwap_getD _ _ _ _ he hplen, listSwap_getD _ _ _ _ he hplen]
          by_cases hje : j = e
          · have hip : i = (e - 1) / 2 := by omega
            rw [if_pos hip, if_neg (show ¬ j = (e - 1) / 2 by omega), if_pos hje]
            exact le_of_lt hlt
          · rw [if_neg hne, if_neg hje]
            by_cases hip : i = (e - 1) / 2
            · rw [if_pos hip]
              exact le_trans (le_of_lt hlt) (hip ▸ hex i j hj hc hje)
            · rw [if_neg hip]
              by_cases hie : i = e
              · rw [if_pos hie]
                refine hskip j hj ?_
                rcases hc with h | h
                · exact Or.inl (by omega)
                · exact Or.inr (by omega)
              · rw [if_neg hie]
                exact hex i j hj hc hje
        · -- UpSkip after the swap
          intro j hj hc
          rw [listSwap_length] at hj
          rw [listSwap_getD _ _ _ _ he hplen, listSwap_getD _ _ _ _ he hplen]
          have hjp : ¬ j = (e - 1) / 2 := by omega
          rw [if_neg hjp]
          by_cases hp0 : (e - 1) / 2 = 0
          · -- the hole reached the root: its own value bounds the children
            rw [if_pos (by omega : ((e - 1) / 2 - 1) / 2 = (e - 1) / 2)]
            by_cases hje : j = e
            · rw [if_pos hje]
              exact le_of_lt hlt
            · rw [if_neg hje]
              exact le_trans (le_of_lt hlt) (hex _ j hj hc hje)
          · rw [if_neg (by omega : ¬ ((e - 1) / 2 - 1) / 2 = (e - 1) / 2),
                if_neg (by omega : ¬ ((e - 1) / 2 - 1) / 2 = e)]
            have hpar : (e - 1) / 2 = 2 * (((e - 1) / 2 - 1) / 2) + 1 ∨
                (e - 1) / 2 = 2 * (((e - 1) / 2 - 1) / 2) + 2 := by omega
            have h1 := hex (((e - 1) / 2 - 1) / 2) ((e - 1) / 2) (by omega) hpar (by omega)
            by_cases hje : j = e
            · rw [if_pos hje]
              exact h1
            · rw [if_neg hje]
              exact le_trans h1 (hex _ j hj hc hje)
      · rw [if_neg hlt]
        intro i j hj hc
        by_cases hje : j = e
        · have hip : i = (e - 1) / 2 := by omega
          rw [hip, hje]
          omega
        · exact hex i j hj hc hje

theorem heapifyUp_perm (e : Nat) : ∀ a : List Int, e < a.length →
    (heapifyUp a e).Perm a := by
  induction e using Nat.strong_induction_on with
  | _ e IH =>
    intro a he
    rw [heapifyUp]
    by_cases he0 : e = 0
    · rw [if_pos he0]
    · rw [if_neg he0]
      by_cases hlt : a.getD e 0 < a.getD ((e - 1) / 2) 0
      · rw [if_pos hlt]
        have hplen : (e - 1) / 2 < a.length := by omega
        exact (IH _ (by omega) _ (by rw [listSwap_length]; omega)).trans
          (listSwap_perm a e ((e - 1) / 2) he hplen)
      · rw [if_neg hlt]

theorem hdSmallest_le (a : List Int) (e : Nat) :
    a.getD (hdSmallest a e) 0 ≤ a.getD e 0 ∧
    ∀ j, j < a.length → (j = 2 * e + 1 ∨ j = 2 * e + 2) →
      a.getD (hdSmallest a e) 0 ≤ a.getD j 0 := by
  unfold hdSmallest hdSmallest1
  by_cases c1 : 2 * e + 1 < a.length ∧ a.getD (2 * e + 1) 0 < a.getD e 0
  · rw [if_pos c1]
    by_cases c2 : 2 * e + 2 < a.length ∧ a.getD (2 * e + 2) 0 < a.getD (2 * e + 1) 0
    · rw [if_pos c2]
      refine ⟨by omega, ?_⟩
      intro j hj hc
      rcases hc with rfl | rfl <;> omega
    · rw [if_neg c2]
      refine ⟨by omega, ?_⟩
      intro j hj hc
      rcases hc with rfl | rfl <;> omega
  · rw [if_neg c1]
    by_cases c2 : 2 * e + 2 < a.length ∧ a.getD (2 * e + 2) 0 < a.getD e 0
    · rw [if_pos c2]
      refine ⟨by omega, ?_⟩
      intro j hj hc
      rcases hc with rfl | rfl <;> omega
    · rw [if_neg c2]
      refine ⟨by omega, ?_⟩
      intro j hj hc
      rcases hc with rfl | rfl <;> omega

theorem hdSmallest_child (a : List Int) (e : Nat) (h : hdSmallest a e ≠ e) :
    (hdSmallest a e = 2 * e + 1 ∨ hdSmallest a e = 2 * e + 2) ∧
      hdSmallest a e < a.length := by
  unfold hdSmallest hdSmallest1 at h ⊢
  by_cases c1 : 2 * e + 1 < a.length ∧ a.getD (2 * e + 1) 0 < a.getD e 0
  · rw [if_pos c1] at h ⊢
    by_cases c2 : 2 * e + 2 < a.length ∧ a.getD (2 * e + 2) 0 < a.getD (2 * e + 1) 0
    · rw [if_pos c2]
      exact ⟨Or.inr rfl, c2.1⟩
    · rw [if_neg c2]
      exact ⟨Or.inl rfl, c1.1⟩
  · rw [if_neg c1] at h ⊢
    by_cases c2 : 2 * e + 2 < a.length ∧ a.getD (2 * e + 2) 0 < a.getD e 0
    · rw [if_pos c2]
      exact ⟨Or.inr rfl, c2.1⟩
    · rw [if_neg c2] at h
      exact absurd rfl h

theorem heapifyDown_heap (n : Nat) : ∀ (a : List Int) (e : Nat), a.length - e = n →
    DownExcept a e → DownSkip a e → IsMinHeap (heapifyDown a e) := by
  induction n using Nat.strong_induction_on with
  | _ n IH =>
    intro a e hn hex hskip
    rw [heapifyDown]
    by_cases hse : hdSmallest a e ≠ e
    · rw [dif_pos hse]
      obtain ⟨hchild, hslen⟩ := hdSmallest_child a e hse
      have hegt : e < hdSmallest a e := by omega
      have helen : e < a.length := by omega
      have hle := hdSmallest_le a e
      set s := hdSmallest a e with hs
      refine IH ((listSwap a e s).length - s) ?_ _ _ rfl ?_ ?_
      · rw [listSwap_length]
        omega
      · -- heap property except below the new hole s
        intro i j hj hc hne
        rw [listSwap_length] at hj
        rw [listSwap_getD _ _ _ _ helen hslen, listSwap_getD _ _ _ _ helen hslen]
        by_cases hie : i = e
        · rw [if_neg (by omega : ¬ i = s), if_pos hie]
          by_cases hjs : j = s
          · rw [if_pos hjs]
            exact hle.1
          · rw [if_neg hjs, if_neg (by omega : ¬ j = e)]
            refine hle.2 j hj ?_
            rcases hc with h | h
            · exact Or.inl (by omega)
            · exact Or.inr (by omega)
        · rw [if_neg hne, if_neg hie]
          by_cases hjs : j = s
          · exact absurd (by omega : i = e) hie
          · rw [if_neg hjs]
            by_cases hje : j = e
            · rw [if_pos hje]
              have hi : i = (e - 1) / 2 := by omega
              have he0 : 0 < e := by omega
              rw [hi]
              refine hskip he0 s hslen ?_
              rcases hchild with h | h
              · exact Or.inl h
              · exact Or.inr h
            · rw [if_neg hje]
              exact hex i j hj hc hie
      · -- skip-level property at the new hole s
        intro hs0 j hj hc
        rw [listSwap_length] at hj
        rw [listSwap_getD _ _ _ _ helen hslen, listSwap_getD _ _ _ _ helen hslen]
        have hpe : (s - 1) / 2 = e := by omega
        rw [hpe, if_neg (by omega : ¬ e = s), if_pos rfl,
            if_neg (by omega : ¬ j = s), if_neg (by omega : ¬ j = e)]
        exact hex s j hj hc hse
    · rw [dif_neg hse]
      intro i j hj hc
      by_cases hie : i = e
      · have h2 := (hdSmallest_le a e).2 j hj (by rw [hie] at hc; exact hc)
        rw [not_not.1 hse] at h2
        rw [hie]
        exact h2
      · exact hex i j hj hc hie

theorem heapifyDown_perm (n : Nat) : ∀ (a : List Int) (e : Nat), a.length - e = n →
    (heapifyDown a e).Perm a := by
  induction n using Nat.strong_induction_on with
  | _ n IH =>
    intro a e hn
    rw [heapifyDown]
    by_cases hse : hdSmallest a e ≠ e
    · rw [dif_pos hse]
      obtain ⟨hchild, hslen⟩ := hdSmallest_child a e hse
      have hegt : e < hdSmallest a e := by omega
      have helen : e < a.length := by omega
      exact (IH ((listSwap a e (hdSmallest a e)).length - hdSmallest a e)
        (by rw [listSwap_length]; omega) _ _ rfl).trans
        (listSwap_perm a e (hdSmallest a e) helen hslen)
    · rw [dif_neg hse]

theorem getD_append_left (a : List Int) (v : Int) (k : Nat) (hk : k < a.length) :
    (a ++ [v]).getD k 0 = a.getD k 0 := by
  rw [List.getD_eq_getElem?_getD, List.getD_eq_getElem?_getD, List.getElem?_append,
    if_pos hk]

theorem minHeap_insert_heap (s : MinHeap) (v : Int) (h : IsMinHeap s.array) :
    IsMinHeap (MinHeap.insert s v).1.array := by
  unfold MinHeap.insert
  refine heapifyUp_heap s.array.length (s.array ++ [v]) (by simp) ?_ ?_
  · intro i j hj hc hne
    simp only [List.length_append, List.length_cons, List.length_nil] at hj
    have hjlen : j < s.array.length := by omega
    have hilen : i < s.array.length := by omega
    rw [getD_append_left _ _ _ hjlen, getD_append_left _ _ _ hilen]
    exact h i j hjlen hc
  · intro j hj hc
    simp only [List.length_append, List.length_cons, List.length_nil] at hj
    omega

theorem delete_array_eq (s : MinHeap) (h : ¬ s.array.isEmpty) :
    (MinHeap.delete s).2.1.array =
      if 0 < s.array.dropLast.length
      then heapifyDown (s.array.dropLast.set 0 (s.array.getLastD 0)) 0
      else s.array.dropLast := by
  unfold MinHeap.delete
  rw [if_neg h]

theorem dropLast_set_getD (a : List Int) (x : Int) (k : Nat)
    (hk : k < a.dropLast.length) (hk0 : k ≠ 0) :
    (a.dropLast.set 0 x).getD k 0 = a.getD k 0 := by
  rw [List.getD_eq_getElem?_getD, List.getD_eq_getElem?_getD, List.getElem?_set,
    if_neg (fun hh : (0 : Nat) = k => hk0 hh.symm), List.getElem?_dropLast,
    if_pos (by simpa using hk)]

theorem minHeap_delete_heap (s : MinHeap) (h : IsMinHeap s.array) :
    IsMinHeap (MinHeap.delete s).2.1.array := by
  by_cases hemp : s.array.isEmpty
  · unfold MinHeap.delete
    rw [if_pos hemp]
    exact h
  · rw [delete_array_eq s hemp]
    by_cases hlen : 0 < s.array.dropLast.length
    · rw [if_pos hlen]
      refine heapifyDown_heap
        ((s.array.dropLast.set 0 (s.array.getLastD 0)).length - 0) _ 0 rfl ?_ ?_
      · intro i j hj hc hi0
        rw [List.length_set] at hj
        have hj0 : j ≠ 0 := by omega
        rw [dropLast_set_getD _ _ _ hj hj0, dropLast_set_getD _ _ _ (by omega) hi0]
        refine h i j ?_ hc
        rw [List.dropLast_eq_take, List.length_take] at hj
        omega
      · intro h0
        exact absurd h0 (lt_irrefl 0)
    · rw [if_neg hlen]
      intro i j hj hc
      omega

theorem set_zero_dropLast_perm_tail (a : List Int) (hlen : 0 < a.dropLast.length) :
    (a.dropLast.set 0 (a.getLastD 0)).Perm a.tail := by
  cases a with
  | nil => simp at hlen
  | cons x t =>
    cases t with
    | nil => simp at hlen
    | cons y u =>
      have ht : y :: u ≠ [] := by simp
      rw [List.dropLast_cons₂, List.set_cons_zero, List.tail_cons, List.getLastD_cons,
        List.getLastD_eq_getLast?, List.getLast?_eq_getLast _ ht, Option.getD_some]
      calc ((y :: u).getLast ht :: (y :: u).dropLast).Perm
            ((y :: u).dropLast ++ [(y :: u).getLast ht]) :=
              (List.perm_append_singleton _ _).symm
        _ = y :: u := List.dropLast_append_getLast ht

theorem minHeap_delete_perm (s : MinHeap) (h : ¬ s.array.isEmpty) :
    (MinHeap.delete s).2.1.array.Perm s.array.tail := by
  rw [delete_array_eq s h]
  by_cases hlen : 0 < s.array.dropLast.length
  · rw [if_pos hlen]
    exact (heapifyDown_perm _ _ 0 rfl).trans (set_zero_dropLast_perm_tail _ hlen)
  · rw [if_neg hlen]
    cases harr : s.array with
    | nil => simp [harr] at h
    | cons x t =>
      cases t with
      | nil => simp
      | cons y u =>
        rw [harr, List.dropLast_eq_take, List.length_take] at hlen
        simp at hlen

theorem heap_root_min (a : List Int) (h : IsMinHeap a) :
    ∀ j, j < a.length → a.getD 0 0 ≤ a.getD j 0 := by
  intro j
  induction j using Nat.strong_induction_on with
  | _ j IH =>
    intro hj
    by_cases hj0 : j = 0
    · rw [hj0]
    · have hpar : j = 2 * ((j - 1) / 2) + 1 ∨ j = 2 * ((j - 1) / 2) + 2 := by omega
      exact le_trans (IH ((j - 1) / 2) (by omega) (by omega)) (h _ j hj hpar)

theorem init_heap : IsMinHeap (MinHeap.init).array := by
  intro a b hb hc
  simp [MinHeap.init] at hb

theorem applyOps_heap (ops : List HeapOp) : ∀ s : MinHeap, IsMinHeap s.array →
    IsMinHeap (MinHeap.applyOps s ops).array := by
  induction ops with
  | nil =>
    intro s hs
    exact hs
  | cons op rest IH =>
    intro s hs
    cases op with
    | ins v => exact IH _ (minHeap_insert_heap s v hs)
    | del => exact IH _ (minHeap_delete_heap s hs)

theorem insertList_heap (vs : List Int) : ∀ s : MinHeap, IsMinHeap s.array →
    IsMinHeap (MinHeap.insertList s vs).array := by
  induction vs with
  | nil =>
    intro s hs
    exact hs
  | cons v rest IH =>
    intro s hs
    simp only [MinHeap.insertList, List.foldl_cons]
    exact IH _ (minHeap_insert_heap s v hs)

theorem mem_deleteRun (n : Nat) : ∀ (s : MinHeap) (y : Int),
    y ∈ MinHeap.deleteRun s n → y ∈ s.array := by
  induction n with
  | zero =>
    intro s y hy
    simp [MinHeap.deleteRun] at hy
  | succ n IH =>
    intro s y hy
    rw [MinHeap.deleteRun] at hy
    by_cases hemp : s.array.isEmpty
    · rw [if_pos hemp] at hy
      simp at hy
    · rw [if_neg hemp] at hy
      rcases List.mem_cons.1 hy with h0 | hrest
      · subst h0
        cases harr : s.array with
        | nil => simp [harr] at hemp
        | cons x t =>
          simp [List.getD]
      · have h2 := IH _ y hrest
        have h3 : y ∈ s.array.tail := ((minHeap_delete_perm s hemp).mem_iff).1 h2
        exact List.mem_of_mem_tail h3

theorem deleteRun_sorted (n : Nat) : ∀ s : MinHeap, IsMinHeap s.array →
    (MinHeap.deleteRun s n).Sorted (· ≤ ·) := by
  induction n with
  | zero =>
    intro s hs
    simp [MinHeap.deleteRun]
  | succ n IH =>
    intro s hs
    rw [MinHeap.deleteRun]
    by_cases hemp : s.array.isEmpty
    · rw [if_pos hemp]
      simp
    · rw [if_neg hemp]
      rw [List.sorted_cons]
      constructor
      · intro b hb
        have hb2 := mem_deleteRun n _ b hb
        have hb3 : b ∈ s.array.tail := ((minHeap_delete_perm s hemp).mem_iff).1 hb2
        have hb4 : b ∈ s.array := List.mem_of_mem_tail hb3
        obtain ⟨k, hk, rfl⟩ := List.mem_iff_getElem.1 hb4
        rw [← List.getD_eq_getElem _ 0 hk]
        exact heap_root_min _ hs k hk
      · exact IH _ (minHeap_delete_heap s hs)

/-- C8: after every sequence of Min-Heap inserts and deletes starting
from the empty heap, the backing array satisfies array[i] <= array[2i+1]
and array[i] <= array[2i+2] whenever those children exist. -/
theorem C8_minheap_array_invariant (ops : List HeapOp) (i : Nat) :
    (2 * i + 1 < (MinHeap.applyOps MinHeap.init ops).array.length →
      (MinHeap.applyOps MinHeap.init ops).array.getD i 0 ≤
        (MinHeap.applyOps MinHeap.init ops).array.getD (2 * i + 1) 0) ∧
    (2 * i + 2 < (MinHeap.applyOps MinHeap.init ops).array.length →
      (MinHeap.applyOps MinHeap.init ops).array.getD i 0 ≤
        (MinHeap.applyOps MinHeap.init ops).array.getD (2 * i + 2) 0) := by
  have h := applyOps_heap ops MinHeap.init init_heap
  exact ⟨fun hlt => h i _ hlt (Or.inl rfl), fun hlt => h i _ hlt (Or.inr rfl)⟩

/-- C7: on a non-empty Min-Heap (any state satisfying the heap
invariant), delete() succeeds, reports the root array[0], which is a
minimum of the array, and the remaining multiset is the original minus
that one occurrence; consequently inserting 7 values and then deleting
the minimum 7 times yields a non-decreasing sequence. -/
theorem C7_minheap_delete_removes_min :
    (∀ s : MinHeap, IsMinHeap s.array → s.array ≠ [] →
      (MinHeap.delete s).1 = true ∧
      (MinHeap.delete s).2.2 =
        [TreeEvent.nodeDeleted (s.array.getD 0 0) (MinHeap.delete s).2.1] ∧
      (∀ x ∈ s.array, s.array.getD 0 0 ≤ x) ∧
      (MinHeap.delete s).2.1.array.Perm s.array.tail) ∧
    (∀ vs : List Int, vs.length = 7 →
      (MinHeap.deleteRun (MinHeap.insertList MinHeap.init vs) 7).Sorted (· ≤ ·)) := by
  constructor
  · intro s hs hne
    have hemp : ¬ s.array.isEmpty = true := by
      simpa [List.isEmpty_iff] using hne
    refine ⟨?_, ?_, ?_, minHeap_delete_perm s hemp⟩
    · unfold MinHeap.delete
      rw [if_neg hemp]
    · unfold MinHeap.delete
      rw [if_neg hemp]
    · intro x hx
      obtain ⟨k, hk, rfl⟩ := List.mem_iff_getElem.1 hx
      rw [← List.getD_eq_getElem _ 0 hk]
      exact heap_root_min _ hs k hk
  · intro vs _
    exact deleteRun_sorted 7 _ (insertList_heap vs _ init_heap)

theorem C7_witness :
    IsMinHeap [5] ∧ (([5] : List Int) ≠ []) ∧
    ((MinHeap.delete ⟨[5], 1⟩).1 = true ∧
     (MinHeap.delete ⟨[5], 1⟩).2.2 =
       [TreeEvent.nodeDeleted (([5] : List Int).getD 0 0) (MinHeap.delete ⟨[5], 1⟩).2.1] ∧
     (∀ x ∈ ([5] : List Int), ([5] : List Int).getD 0 0 ≤ x) ∧
     (MinHeap.delete ⟨[5], 1⟩).2.1.array.Perm ([5] : List Int).tail) ∧
    (([3, 1, 4, 1, 5, 9, 2] : List Int).length = 7 ∧
     (MinHeap.deleteRun (MinHeap.insertList MinHeap.init [3, 1, 4, 1, 5, 9, 2]) 7).Sorted
       (· ≤ ·)) := by
  have hheap : IsMinHeap [5] := by
    intro i j hj hc
    simp only [List.length_cons, List.length_nil] at hj
    omega
  exact ⟨hheap, by decide,
    C7_minheap_delete_removes_min.1 ⟨[5], 1⟩ hheap (by decide),
    rfl, C7_minheap_delete_removes_min.2 [3, 1, 4, 1, 5, 9, 2] rfl⟩

/-! ## Claim C2: in-order traversal of BST, AVL and Red-Black trees -/

/-- Every value of the tree satisfies p. -/
def ForallT (p : Int → Prop) : BinTree → Prop
  | BinTree.nil => True
  | BinTree.node l v _ _ r => ForallT p l ∧ p v ∧ ForallT p r

/-- Binary-search-tree ordering (strict: the inserts skip duplicates). -/
def IsBST : BinTree → Prop
  | BinTree.nil => True
  | BinTree.node l v _ _ r =>
    ForallT (· < v) l ∧ ForallT (v < ·) r ∧ IsBST l ∧ IsBST r

theorem ForallT_imp {p q : Int → Prop} (hpq : ∀ x, p x → q x) :
    ∀ t : BinTree, ForallT p t → ForallT q t := by
  intro t
  induction t with
  | nil => intro h; trivial
  | node l v h c r IHl IHr =>
    intro ht
    exact ⟨IHl ht.1, hpq v ht.2.1, IHr ht.2.2⟩

theorem forallT_updateHeight {p : Int → Prop} {t : BinTree} (h : ForallT p t) :
    ForallT p (updateHeight t) := by
  cases t with
  | nil => trivial
  | node l v hh c r => exact h

theorem isBST_updateHeight {t : BinTree} (h : IsBST t) : IsBST (updateHeight t) := by
  cases t with
  | nil => trivial
  | node l v hh c r => exact h

theorem forallT_rotateRight {p : Int → Prop} {t : BinTree} (h : ForallT p t) :
    ForallT p (rotateRight t) := by
  cases t with
  | nil => trivial
  | node l y hy cy c =>
    cases l with
    | nil => exact h
    | node a x hx cx b =>
      obtain ⟨⟨ha, hxv, hb⟩, hyv, hc⟩ := h
      exact ⟨ha, hxv, hb, hyv, hc⟩

theorem forallT_rotateLeft {p : Int → Prop} {t : BinTree} (h : ForallT p t) :
    ForallT p (rotateLeft t) := by
  cases t with
  | nil => trivial
  | node a x hx cx rr =>
    cases rr with
    | nil => exact h
    | node b y hy cy c =>
      obtain ⟨ha, hxv, hb, hyv, hc⟩ := h
      exact ⟨⟨ha, hxv, hb⟩, hyv, hc⟩

theorem isBST_rotateRight {t : BinTree} (h : IsBST t) : IsBST (rotateRight t) := by
  cases t with
  | nil => trivial
  | node l y hy cy c =>
    cases l with
    | nil => exact h
    | node a x hx cx b =>
      obtain ⟨⟨hay, hxy, hby⟩, hyc, ⟨hax, hxb, hba, hbb⟩, hc⟩ := h
      exact ⟨hax, ⟨hxb, hxy, ForallT_imp (fun z hz => lt_trans hxy hz) c hyc⟩,
        hba, ⟨hby, hyc, hbb, hc⟩⟩

theorem isBST_rotateLeft {t : BinTree} (h : IsBST t) : IsBST (rotateLeft t) := by
  cases t with
  | nil => trivial
  | node a x hx cx rr =>
    cases rr with
    | nil => exact h
    | node b y hy cy c =>
      obtain ⟨hax, ⟨hbx, hxy, hcx⟩, ha, ⟨hby, hyc, hbb, hcc⟩⟩ := h
      exact ⟨⟨ForallT_imp (fun z hz => lt_trans hz hxy) a hax, hxy, hby⟩,
        hyc, ⟨hax, hbx, ha, hbb⟩, hcc⟩

theorem forallT_rbRotateRight {p : Int → Prop} {t : BinTree} (h : ForallT p t) :
    ForallT p (rbRotateRight t) := by
  cases t with
  | nil => trivial
  | node l y hy cy c =>
    cases l with
    | nil => exact h
    | node a x hx cx b =>
      obtain ⟨⟨ha, hxv, hb⟩, hyv, hc⟩ := h
      exact ⟨ha, hxv, hb, hyv, hc⟩

theorem forallT_rbRotateLeft {p : Int → Prop} {t : BinTree} (h : ForallT p t) :
    ForallT p (rbRotateLeft t) := by
  cases t with
  | nil => trivial
  | node a x hx cx rr =>
    cases rr with
    | nil => exact h
    | node b y hy cy c =>
      obtain ⟨ha, hxv, hb, hyv, hc⟩ := h
      exact ⟨⟨ha, hxv, hb⟩, hyv, hc⟩

theorem isBST_rbRotateRight {t : BinTree} (h : IsBST t) : IsBST (rbRotateRight t) := by
  cases t with
  | nil => trivial
  | node l y hy cy c =>
    cases l with
    | nil => exact h
    | node a x hx cx b =>
      obtain ⟨⟨hay, hxy, hby⟩, hyc, ⟨hax, hxb, hba, hbb⟩, hc⟩ := h
      exact ⟨hax, ⟨hxb, hxy, ForallT_imp (fun z hz => lt_trans hxy hz) c hyc⟩,
        hba, ⟨hby, hyc, hbb, hc⟩⟩

theorem isBST_rbRotateLeft {t : BinTree} (h : IsBST t) : IsBST (rbRotateLeft t) := by
  cases t with
  | nil => trivial
  | node a x hx cx rr =>
    cases rr with
    | nil => exact h
    | node b y hy cy c =>
      obtain ⟨hax, ⟨hbx, hxy, hcx⟩, ha, ⟨hby, hyc, hbb, hcc⟩⟩ := h
      exact ⟨⟨ForallT_imp (fun z hz => lt_trans hz hxy) a hax, hxy, hby⟩,
        hyc, ⟨hax, hbx, ha, hbb⟩, hcc⟩

theorem forallT_setBlack {p : Int → Prop} {t : BinTree} (h : ForallT p t) :
    ForallT p (setBlack t) := by
  cases t with
  | nil => trivial
  | node l v hh c r => exact h

theorem isBST_setBlack {t : BinTree} (h : IsBST t) : IsBST (setBlack t) := by
  cases t with
  | nil => trivial
  | node l v hh c r => exact h

theorem forallT_flipColors {p : Int → Prop} {t : BinTree} (h : ForallT p t) :
    ForallT p (flipColors t) := by
  cases t with
  | nil => trivial
  | node l v hh c r => exact ⟨forallT_setBlack h.1, h.2.1, forallT_setBlack h.2.2⟩

theorem isBST_flipColors {t : BinTree} (h : IsBST t) : IsBST (flipColors t) := by
  cases t with
  | nil => trivial
  | node l v hh c r =>
    obtain ⟨h1, h2, h3, h4⟩ := h
    exact ⟨forallT_setBlack h1, forallT_setBlack h2, isBST_setBlack h3, isBST_setBlack h4⟩

theorem forallT_setLeft_rotL {p : Int → Prop} {t : BinTree} (h : ForallT p t) :
    ForallT p (setLeft t (rotateLeft (leftOf t))) := by
  cases t with
  | nil => trivial
  | node l v hh c r => exact ⟨forallT_rotateLeft h.1, h.2.1, h.2.2⟩

theorem isBST_setLeft_rotL {t : BinTree} (h : IsBST t) :
    IsBST (setLeft t (rotateLeft (leftOf t))) := by
  cases t with
  | nil => trivial
  | node l v hh c r =>
    obtain ⟨h1, h2, h3, h4⟩ := h
    exact ⟨forallT_rotateLeft h1, h2, isBST_rotateLeft h3, h4⟩

theorem forallT_setRight_rotR {p : Int → Prop} {t : BinTree} (h : ForallT p t) :
    ForallT p (setRight t (rotateRight (rightOf t))) := by
  cases t with
  | nil => trivial
  | node l v hh c r => exact ⟨h.1, h.2.1, forallT_rotateRight h.2.2⟩

theorem isBST_setRight_rotR {t : BinTree} (h : IsBST t) :
    IsBST (setRight t (rotateRight (rightOf t))) := by
  cases t with
  | nil => trivial
  | node l v hh c r =>
    obtain ⟨h1, h2, h3, h4⟩ := h
    exact ⟨h1, forallT_rotateRight h2, h3, isBST_rotateRight h4⟩

theorem forallT_rebalanceIns {p : Int → Prop} {n : BinTree} (value : Int)
    (h : ForallT p n) : ForallT p (avlRebalanceIns n value) := by
  simp only [avlRebalanceIns]
  split_ifs with h1 h2 h3 h4
  · exact forallT_rotateRight h
  · exact forallT_rotateLeft h
  · exact forallT_rotateRight (forallT_setLeft_rotL h)
  · exact forallT_rotateLeft (forallT_setRight_rotR h)
  · exact h

theorem isBST_rebalanceIns {n : BinTree} (value : Int) (h : IsBST n) :
    IsBST (avlRebalanceIns n value) := by
  simp only [avlRebalanceIns]
  split_ifs with h1 h2 h3 h4
  · exact isBST_rotateRight h
  · exact isBST_rotateLeft h
  · exact isBST_rotateRight (isBST_setLeft_rotL h)
  · exact isBST_rotateLeft (isBST_setRight_rotR h)
  · exact h

theorem forallT_rebalanceDel {p : Int → Prop} {n : BinTree}
    (h : ForallT p n) : ForallT p (avlRebalanceDel n) := by
  simp only [avlRebalanceDel]
  split_ifs with h1 h2 h3 h4
  · exact forallT_rotateRight h
  · exact forallT_rotateRight (forallT_setLeft_rotL h)
  · exact forallT_rotateLeft h
  · exact forallT_rotateLeft (forallT_setRight_rotR h)
  · exact h

theorem isBST_rebalanceDel {n : BinTree} (h : IsBST n) :
    IsBST (avlRebalanceDel n) := by
  simp only [avlRebalanceDel]
  split_ifs with h1 h2 h3 h4
  · exact isBST_rotateRight h
  · exact isBST_rotateRight (isBST_setLeft_rotL h)
  · exact isBST_rotateLeft h
  · exact isBST_rotateLeft (isBST_setRight_rotR h)
  · exact h

theorem forallT_fixInsertion {p : Int → Prop} {n : BinTree} (h : ForallT p n) :
    ForallT p (fixInsertion n) := by
  simp only [fixInsertion]
  split_ifs <;>
    first
    | exact forallT_rbRotateRight (forallT_rbRotateLeft (forallT_flipColors h))
    | exact forallT_rbRotateRight (forallT_rbRotateLeft h)
    | exact forallT_rbRotateRight (forallT_flipColors h)
    | exact forallT_rbRotateRight h
    | exact forallT_rbRotateLeft (forallT_flipColors h)
    | exact forallT_rbRotateLeft h
    | exact forallT_flipColors h
    | exact h

theorem isBST_fixInsertion {n : BinTree} (h : IsBST n) : IsBST (fixInsertion n) := by
  simp only [fixInsertion]
  split_ifs <;>
    first
    | exact isBST_rbRotateRight (isBST_rbRotateLeft (isBST_flipColors h))
    | exact isBST_rbRotateRight (isBST_rbRotateLeft h)
    | exact isBST_rbRotateRight (isBST_flipColors h)
    | exact isBST_rbRotateRight h
    | exact isBST_rbRotateLeft (isBST_flipColors h)
    | exact isBST_rbRotateLeft h
    | exact isBST_flipColors h
    | exact h

theorem bstInsertNode_forallT {p : Int → Prop} (value : Int) (hv : p value) :
    ∀ t cnt, ForallT p t → ForallT p (bstInsertNode t value cnt).1 := by
  intro t
  induction t with
  | nil => intro cnt _; exact ⟨trivial, hv, trivial⟩
  | node l v h c r ihl ihr =>
    intro cnt ht
    obtain ⟨hl, hpv, hr⟩ := ht
    simp only [bstInsertNode]
    split_ifs with h1 h2
    · cases l with
      | nil => exact ⟨⟨trivial, hv, trivial⟩, hpv, hr⟩
      | node la lv lh lc lrr => exact ⟨ihl cnt hl, hpv, hr⟩
    · cases r with
      | nil => exact ⟨hl, hpv, trivial, hv, trivial⟩
      | node ra rv rh rc rrr => exact ⟨hl, hpv, ihr cnt hr⟩
    · exact ⟨hl, hpv, hr⟩

theorem bstInsertNode_isBST (value : Int) :
    ∀ t cnt, IsBST t → IsBST (bstInsertNode t value cnt).1 := by
  intro t
  induction t with
  | nil => intro cnt _; exact ⟨trivial, trivial, trivial, trivial⟩
  | node l v h c r ihl ihr =>
    intro cnt ht
    obtain ⟨hlv, hvr, hl, hr⟩ := ht
    simp only [bstInsertNode]
    split_ifs with h1 h2
    · cases l with
      | nil => exact ⟨⟨trivial, h1, trivial⟩, hvr, ⟨trivial, trivial, trivial, trivial⟩, hr⟩
      | node la lv lh lc lrr =>
        exact ⟨@bstInsertNode_forallT (fun x => x < v) value h1 _ cnt hlv, hvr, ihl cnt hl, hr⟩
    · cases r with
      | nil => exact ⟨hlv, ⟨trivial, h2, trivial⟩, hl, trivial, trivial, trivial, trivial⟩
      | node ra rv rh rc rrr =>
        exact ⟨hlv, @bstInsertNode_forallT (fun x => v < x) value h2 _ cnt hvr, hl, ihr cnt hr⟩
    · exact ⟨hlv, hvr, hl, hr⟩

theorem avlInsertNode_forallT {p : Int → Prop} (value : Int) (hv : p value) :
    ∀ t cnt, ForallT p t → ForallT p (avlInsertNode t value cnt).1 := by
  intro t
  induction t with
  | nil => intro cnt _; exact ⟨trivial, hv, trivial⟩
  | node l v h c r ihl ihr =>
    intro cnt ht
    obtain ⟨hl, hpv, hr⟩ := ht
    simp only [avlInsertNode]
    split_ifs with h1 h2
    · exact forallT_rebalanceIns value (forallT_updateHeight ⟨ihl cnt hl, hpv, hr⟩)
    · exact forallT_rebalanceIns value (forallT_updateHeight ⟨hl, hpv, ihr cnt hr⟩)
    · exact ⟨hl, hpv, hr⟩

theorem avlInsertNode_isBST (value : Int) :
    ∀ t cnt, IsBST t → IsBST (avlInsertNode t value cnt).1 := by
  intro t
  induction t with
  | nil => intro cnt _; exact ⟨trivial, trivial, trivial, trivial⟩
  | node l v h c r ihl ihr =>
    intro cnt ht
    obtain ⟨hlv, hvr, hl, hr⟩ := ht
    simp only [avlInsertNode]
    split_ifs with h1 h2
    · exact isBST_rebalanceIns value (isBST_updateHeight
        ⟨@avlInsertNode_forallT (fun x => x < v) value h1 l cnt hlv, hvr, ihl cnt hl, hr⟩)
    · exact isBST_rebalanceIns value (isBST_updateHeight
        ⟨hlv, @avlInsertNode_forallT (fun x => v < x) value h2 r cnt hvr, hl, ihr cnt hr⟩)
    · exact ⟨hlv, hvr, hl, hr⟩

theorem rbInsertNode_forallT {p : Int → Prop} (value : Int) (hv : p value) :
    ∀ t cnt, ForallT p t → ForallT p (rbInsertNode t value cnt).1 := by
  intro t
  induction t with
  | nil => intro cnt _; exact ⟨trivial, hv, trivial⟩
  | node l v h c r ihl ihr =>
    intro cnt ht
    obtain ⟨hl, hpv, hr⟩ := ht
    simp only [rbInsertNode]
    split_ifs with h1 h2
    · exact forallT_fixInsertion ⟨ihl cnt hl, hpv, hr⟩
    · exact forallT_fixInsertion ⟨hl, hpv, ihr cnt hr⟩
    · exact ⟨hl, hpv, hr⟩

theorem rbInsertNode_isBST (value : Int) :
    ∀ t cnt, IsBST t → IsBST (rbInsertNode t value cnt).1 := by
  intro t
  induction t with
  | nil => intro cnt _; exact ⟨trivial, trivial, trivial, trivial⟩
  | node l v h c r ihl ihr =>
    intro cnt ht
    obtain ⟨hlv, hvr, hl, hr⟩ := ht
    simp only [rbInsertNode]
    split_ifs with h1 h2
    · exact isBST_fixInsertion
        ⟨@rbInsertNode_forallT (fun x => x < v) value h1 l cnt hlv, hvr, ihl cnt hl, hr⟩
    · exact isBST_fixInsertion
        ⟨hlv, @rbInsertNode_forallT (fun x => v < x) value h2 r cnt hvr, hl, ihr cnt hr⟩
    · exact ⟨hlv, hvr, hl, hr⟩

theorem forallT_mem {p : Int → Prop} :
    ∀ t : BinTree, ForallT p t → ∀ x ∈ inorderVals t, p x := by
  intro t
  induction t with
  | nil => intro _ x hx; simp [inorderVals] at hx
  | node l v h c r ihl ihr =>
    intro ht x hx
    obtain ⟨hl, hpv, hr⟩ := ht
    simp only [inorderVals, List.mem_append, List.mem_cons] at hx
    rcases hx with hx | hx | hx
    · exact ihl hl x hx
    · exact hx ▸ hpv
    · exact ihr hr x hx

theorem isBST_inorder_sorted :
    ∀ t : BinTree, IsBST t → List.Sorted (fun a b => a < b) (inorderVals t) := by
  intro t
  induction t with
  | nil => intro _; simp [inorderVals]
  | node l v h c r ihl ihr =>
    intro ht
    obtain ⟨hlv, hvr, hl, hr⟩ := ht
    simp only [inorderVals]
    refine List.pairwise_append.mpr ⟨ihl hl,
      List.pairwise_cons.mpr ⟨fun b hb => forallT_mem r hvr b hb, ihr hr⟩, ?_⟩
    intro a ha b hb
    have hav : a < v := forallT_mem l hlv a ha
    rcases List.mem_cons.mp hb with hbv | hbr
    · exact hav.trans_eq hbv.symm
    · exact lt_trans hav (forallT_mem r hvr b hbr)

theorem BSTTree_insert_isBST (s : BSTTree) (v : Int) (h : IsBST s.root) :
    IsBST ((BSTTree.insert s v).1.root) := by
  by_cases hnil : s.root = BinTree.nil
  · simp only [BSTTree.insert, if_pos hnil]
    exact ⟨trivial, trivial, trivial, trivial⟩
  · simp only [BSTTree.insert, if_neg hnil]
    exact bstInsertNode_isBST v s.root s.nodeCount h

theorem BSTTree_insertList_isBST :
    ∀ (vs : List Int) (s : BSTTree), IsBST s.root →
      IsBST (BSTTree.insertList s vs).root := by
  intro vs
  induction vs with
  | nil => intro s h; exact h
  | cons v vs ih =>
    intro s h
    exact ih (BSTTree.insert s v).1 (BSTTree_insert_isBST s v h)

theorem AVLTree_insert_isBST (s : AVLTree) (v : Int) (h : IsBST s.root) :
    IsBST ((AVLTree.insert s v).1.root) :=
  avlInsertNode_isBST v s.root s.nodeCount h

theorem AVLTree_insertList_isBST :
    ∀ (vs : List Int) (s : AVLTree), IsBST s.root →
      IsBST (AVLTree.insertList s vs).root := by
  intro vs
  induction vs with
  | nil => intro s h; exact h
  | cons v vs ih =>
    intro s h
    exact ih (AVLTree.insert s v).1 (AVLTree_insert_isBST s v h)

theorem RedBlackTree_insert_isBST (s : RedBlackTree) (v : Int) (h : IsBST s.root) :
    IsBST ((RedBlackTree.insert s v).1.root) := by
  have h2 := rbInsertNode_isBST v s.root s.nodeCount h
  simp only [RedBlackTree.insert]
  split_ifs with hn
  · exact isBST_setBlack h2
  · exact h2

theorem RedBlackTree_insertList_isBST :
    ∀ (vs : List Int) (s : RedBlackTree), IsBST s.root →
      IsBST (RedBlackTree.insertList s vs).root := by
  intro vs
  induction vs with
  | nil => intro s h; exact h
  | cons v vs ih =>
    intro s h
    exact ih (RedBlackTree.insert s v).1 (RedBlackTree_insert_isBST s v h)

/-- C2: for every sequence of insert calls applied to an initially empty
BST, AVL tree or Red-Black tree, the in-order traversal afterwards visits
the stored values in non-decreasing (in fact strictly increasing) order. -/
theorem C2_inorder_nondecreasing (vs : List Int) :
    List.Sorted (fun a b => a ≤ b)
      (inorderVals (BSTTree.insertList BSTTree.init vs).root) ∧
    List.Sorted (fun a b => a ≤ b)
      (inorderVals (AVLTree.insertList AVLTree.init vs).root) ∧
    List.Sorted (fun a b => a ≤ b)
      (inorderVals (RedBlackTree.insertList RedBlackTree.init vs).root) := by
  have hb := isBST_inorder_sorted _ (BSTTree_insertList_isBST vs BSTTree.init trivial)
  have ha := isBST_inorder_sorted _ (AVLTree_insertList_isBST vs AVLTree.init trivial)
  have hr := isBST_inorder_sorted _ (RedBlackTree_insertList_isBST vs RedBlackTree.init trivial)
  exact ⟨hb.imp le_of_lt, ha.imp le_of_lt, hr.imp le_of_lt⟩

/-! ## C5 machinery: AVL height bookkeeping and balance invariant -/

/-- Stored heights agree with the recomputed heights at every node. -/
def HOK : BinTree → Prop
  | BinTree.nil => True
  | BinTree.node l _ h _ r => HOK l ∧ HOK r ∧ h = 1 + max (realHeight l) (realHeight r)

/-- AVL shape invariant: children differ in (real) height by at most 1,
recursively. -/
def BalancedT : BinTree → Prop
  | BinTree.nil => True
  | BinTree.node l _ _ _ r => BalancedT l ∧ BalancedT r ∧
      realHeight l ≤ realHeight r + 1 ∧ realHeight r ≤ realHeight l + 1

/-- The claim's phrasing: balance factor height(left) - height(right)
in {-1, 0, 1} at every node. -/
def AllBalanced : BinTree → Prop
  | BinTree.nil => True
  | BinTree.node l _ _ _ r =>
      ((realHeight l : Int) - realHeight r = -1 ∨
       (realHeight l : Int) - realHeight r = 0 ∨
       (realHeight l : Int) - realHeight r = 1) ∧ AllBalanced l ∧ AllBalanced r

theorem HOK_getNodeHeight : ∀ t : BinTree, HOK t → getNodeHeight t = realHeight t := by
  intro t ht
  cases t with
  | nil => rfl
  | node l v h c r =>
    obtain ⟨_, _, he⟩ := ht
    simp only [getNodeHeight, realHeight, he]

theorem balancedT_allBalanced : ∀ t : BinTree, BalancedT t → AllBalanced t := by
  intro t
  induction t with
  | nil => intro _; trivial
  | node l v h c r ihl ihr =>
    intro ⟨hl, hr, h1, h2⟩
    exact ⟨by omega, ihl hl, ihr hr⟩

theorem realHeight_node (l r : BinTree) (v : Int) (h : Nat) (c : Color) :
    realHeight (BinTree.node l v h c r) = 1 + max (realHeight l) (realHeight r) := rfl

theorem HOK_node {l r : BinTree} {v : Int} {c : Color} {h : Nat}
    (hl : HOK l) (hr : HOK r) (he : h = 1 + max (realHeight l) (realHeight r)) :
    HOK (BinTree.node l v h c r) := ⟨hl, hr, he⟩

theorem balancedT_node {l r : BinTree} {v : Int} {c : Color} {h : Nat}
    (hl : BalancedT l) (hr : BalancedT r)
    (h1 : realHeight l ≤ realHeight r + 1) (h2 : realHeight r ≤ realHeight l + 1) :
    BalancedT (BinTree.node l v h c r) := ⟨hl, hr, h1, h2⟩

theorem getNodeHeight_node (l r : BinTree) (v : Int) (h : Nat) (c : Color) :
    getNodeHeight (BinTree.node l v h c r) = h := rfl

theorem getNodeHeight_nil : getNodeHeight BinTree.nil = 0 := rfl

/-- Effect of the insert-time rebalancing step on a node whose children
are AVL-shaped and whose (real) heights differ by at most 2, with the
inserted-value side conditions available on the overflowing child: the
result is AVL-shaped, its height is max(hl,hr) when a rotation fired and
1+max(hl,hr) otherwise, and without overflow the step is the identity on
the height-updated node. -/
theorem avlRebalanceIns_spec (l r : BinTree) (v value : Int) (h0 : Nat) (c : Color)
    (hHl : HOK l) (hHr : HOK r) (hBl : BalancedT l) (hBr : BalancedT r)
    (hg1 : realHeight l ≤ realHeight r + 2) (hg2 : realHeight r ≤ realHeight l + 2)
    (hcl : realHeight l = realHeight r + 2 →
        (realHeight (leftOf l) = realHeight (rightOf l) + 1 ∧ value < nodeValue l) ∨
        (realHeight (rightOf l) = realHeight (leftOf l) + 1 ∧ nodeValue l < value))
    (hcr : realHeight r = realHeight l + 2 →
        (realHeight (leftOf r) = realHeight (rightOf r) + 1 ∧ value < nodeValue r) ∨
        (realHeight (rightOf r) = realHeight (leftOf r) + 1 ∧ nodeValue r < value)) :
    HOK (avlRebalanceIns (updateHeight (BinTree.node l v h0 c r)) value) ∧
    BalancedT (avlRebalanceIns (updateHeight (BinTree.node l v h0 c r)) value) ∧
    (realHeight l = realHeight r + 2 ∨ realHeight r = realHeight l + 2 →
      realHeight (avlRebalanceIns (updateHeight (BinTree.node l v h0 c r)) value)
        = max (realHeight l) (realHeight r)) ∧
    (realHeight l ≤ realHeight r + 1 ∧ realHeight r ≤ realHeight l + 1 →
      avlRebalanceIns (updateHeight (BinTree.node l v h0 c r)) value
        = BinTree.node l v (1 + max (realHeight l) (realHeight r)) c r) := by
  have hsl := HOK_getNodeHeight l hHl
  have hsr := HOK_getNodeHeight r hHr
  have hup : updateHeight (BinTree.node l v h0 c r)
      = BinTree.node l v (1 + max (realHeight l) (realHeight r)) c r := by
    simp only [updateHeight, hsl, hsr]
  rw [hup]
  by_cases hov1 : realHeight l = realHeight r + 2
  · cases l with
    | nil => exact absurd hov1 (by simp only [realHeight]; omega)
    | node a u hu cu b =>
      obtain ⟨hHa, hHb, hue⟩ := hHl
      obtain ⟨hBa, hBb, hab1, hab2⟩ := hBl
      have hsa := HOK_getNodeHeight a hHa
      have hsb := HOK_getNodeHeight b hHb
      rw [realHeight_node] at hov1
      rcases hcl hov1 with ⟨hbal, hvu⟩ | ⟨hbal, hvu⟩
      · -- LL: single right rotation
        simp only [leftOf, rightOf, nodeValue] at hbal hvu
        simp only [avlRebalanceIns, rotateRight, rotateLeft, setLeft, setRight,
          updateHeight, getBalance, getNodeHeight_node, getNodeHeight_nil,
          leftOf, rightOf, nodeValue, realHeight, hue, hsa, hsb, hsr]
        split_ifs with h1 h2 h3 h4
        · refine ⟨⟨hHa, ⟨hHb, hHr, ?_⟩, ?_⟩,
            ⟨hBa, ⟨hBb, hBr, ?_, ?_⟩, ?_, ?_⟩, ?_, ?_⟩ <;>
            first
            | omega
            | (simp only [realHeight] <;> omega)
            | (intro hx; simp only [realHeight] <;> omega)
            | (intro hx; simp only [realHeight] at hx; exfalso; omega)
            | (intro hx; exfalso; omega)
        · exact absurd ⟨by omega, hvu⟩ h1
        · exact absurd ⟨by omega, hvu⟩ h1
        · exact absurd ⟨by omega, hvu⟩ h1
        · exact absurd ⟨by omega, hvu⟩ h1
      · -- LR: double rotation through the left child's right child
        simp only [leftOf, rightOf, nodeValue] at hbal hvu
        cases b with
        | nil =>
          exfalso
          simp only [realHeight] at hbal hov1
          omega
        | node b1 w hw cw b2 =>
          obtain ⟨hHb1, hHb2, hwe⟩ := hHb
          obtain ⟨hBb1, hBb2, hb12, hb21⟩ := hBb
          have hsb1 := HOK_getNodeHeight b1 hHb1
          have hsb2 := HOK_getNodeHeight b2 hHb2
          simp only [realHeight] at hbal hov1 hab1 hab2
          simp only [avlRebalanceIns, rotateRight, rotateLeft, setLeft, setRight,
            updateHeight, getBalance, getNodeHeight_node, getNodeHeight_nil,
            leftOf, rightOf, nodeValue, realHeight, hue, hwe, hsa, hsb1, hsb2, hsr]
          split_ifs with h1 h2 h3 h4
          · exact absurd h1.2 (lt_asymm hvu)
          · exact absurd h2.1 (by omega)
          · refine ⟨⟨⟨hHa, hHb1, ?_⟩, ⟨hHb2, hHr, ?_⟩, ?_⟩,
              ⟨⟨hBa, hBb1, ?_, ?_⟩, ⟨hBb2, hBr, ?_, ?_⟩, ?_, ?_⟩, ?_, ?_⟩ <;>
              first
              | omega
              | (simp only [realHeight] <;> omega)
              | (intro hx; simp only [realHeight] <;> omega)
              | (intro hx; simp only [realHeight] at hx; exfalso; omega)
              | (intro hx; exfalso; omega)
          · exact absurd h4.1 (by omega)
          · exact absurd ⟨by omega, hvu⟩ h3
  · by_cases hov2 : realHeight r = realHeight l + 2
    · cases r with
      | nil => exact absurd hov2 (by simp only [realHeight]; omega)
      | node d w hw cw e =>
        obtain ⟨hHd, hHe, hwe⟩ := hHr
        obtain ⟨hBd, hBe, hde1, hde2⟩ := hBr
        have hsd := HOK_getNodeHeight d hHd
        have hse := HOK_getNodeHeight e hHe
        rw [realHeight_node] at hov2
        rcases hcr hov2 with ⟨hbal, hvw⟩ | ⟨hbal, hvw⟩
        · -- RL: double rotation through the right child's left child
          simp only [leftOf, rightOf, nodeValue] at hbal hvw
          cases d with
          | nil =>
            exfalso
            simp only [realHeight] at hbal hov2
            omega
          | node d1 x hx cx d2 =>
            obtain ⟨hHd1, hHd2, hxe⟩ := hHd
            obtain ⟨hBd1, hBd2, hd12, hd21⟩ := hBd
            have hsd1 := HOK_getNodeHeight d1 hHd1
            have hsd2 := HOK_getNodeHeight d2 hHd2
            simp only [realHeight] at hbal hov2 hde1 hde2
            simp only [avlRebalanceIns, rotateRight, rotateLeft, setLeft, setRight,
              updateHeight, getBalance, getNodeHeight_node, getNodeHeight_nil,
              leftOf, rightOf, nodeValue, realHeight, hwe, hxe, hsl, hsd1, hsd2, hse]
            split_ifs with h1 h2 h3 h4
            · exact absurd h1.1 (by omega)
            · exact absurd h2.2 (lt_asymm hvw)
            · exact absurd h3.1 (by omega)
            · refine ⟨⟨⟨hHl, hHd1, ?_⟩, ⟨hHd2, hHe, ?_⟩, ?_⟩,
                ⟨⟨hBl, hBd1, ?_, ?_⟩, ⟨hBd2, hBe, ?_, ?_⟩, ?_, ?_⟩, ?_, ?_⟩ <;>
                first
                | omega
                | (simp only [realHeight] <;> omega)
                | (intro hx2; simp only [realHeight] <;> omega)
                | (intro hx2; simp only [realHeight] at hx2; exfalso; omega)
                | (intro hx2; exfalso; omega)
            · exact absurd ⟨by omega, hvw⟩ h4
        · -- RR: single left rotation
          simp only [leftOf, rightOf, nodeValue] at hbal hvw
          simp only [avlRebalanceIns, rotateRight, rotateLeft, setLeft, setRight,
            updateHeight, getBalance, getNodeHeight_node, getNodeHeight_nil,
            leftOf, rightOf, nodeValue, realHeight, hwe, hsl, hsd, hse]
          split_ifs with h1 h2 h3 h4
          · exact absurd h1.1 (by omega)
          · refine ⟨⟨⟨hHl, hHd, ?_⟩, hHe, ?_⟩,
              ⟨⟨hBl, hBd, ?_, ?_⟩, hBe, ?_, ?_⟩, ?_, ?_⟩ <;>
              first
              | omega
              | (simp only [realHeight] <;> omega)
              | (intro hx; simp only [realHeight] <;> omega)
              | (intro hx; simp only [realHeight] at hx; exfalso; omega)
              | (intro hx; exfalso; omega)
          · exact absurd h3.1 (by omega)
          · exact absurd ⟨by omega, hvw⟩ h2
          · exact absurd ⟨by omega, hvw⟩ h2
    · -- no overflow: all four rotation guards are false
      simp only [avlRebalanceIns, getBalance, leftOf, rightOf, nodeValue, hsl, hsr]
      split_ifs with h1 h2 h3 h4
      · exact absurd h1.1 (by omega)
      · exact absurd h2.1 (by omega)
      · exact absurd h3.1 (by omega)
      · exact absurd h4.1 (by omega)
      · exact ⟨⟨hHl, hHr, rfl⟩, ⟨hBl, hBr, by omega, by omega⟩,
          fun hx => absurd hx (by omega), fun hno => rfl⟩


/-- Effect of the delete-time rebalancing step: with AVL-shaped children
whose heights differ by at most 2, the result is AVL-shaped, its height
is at most 1+max(hl,hr), it is at least max(hl,hr) when a rotation fired,
and exactly 1+max(hl,hr) when none did. -/
theorem avlRebalanceDel_spec (l r : BinTree) (v : Int) (h0 : Nat) (c : Color)
    (hHl : HOK l) (hHr : HOK r) (hBl : BalancedT l) (hBr : BalancedT r)
    (hg1 : realHeight l ≤ realHeight r + 2) (hg2 : realHeight r ≤ realHeight l + 2) :
    HOK (avlRebalanceDel (updateHeight (BinTree.node l v h0 c r))) ∧
    BalancedT (avlRebalanceDel (updateHeight (BinTree.node l v h0 c r))) ∧
    (realHeight l = realHeight r + 2 ∨ realHeight r = realHeight l + 2 →
      max (realHeight l) (realHeight r)
        ≤ realHeight (avlRebalanceDel (updateHeight (BinTree.node l v h0 c r)))) ∧
    (realHeight l ≤ realHeight r + 1 ∧ realHeight r ≤ realHeight l + 1 →
      realHeight (avlRebalanceDel (updateHeight (BinTree.node l v h0 c r)))
        = 1 + max (realHeight l) (realHeight r)) ∧
    realHeight (avlRebalanceDel (updateHeight (BinTree.node l v h0 c r)))
      ≤ 1 + max (realHeight l) (realHeight r) := by
  have hsl := HOK_getNodeHeight l hHl
  have hsr := HOK_getNodeHeight r hHr
  have hup : updateHeight (BinTree.node l v h0 c r)
      = BinTree.node l v (1 + max (realHeight l) (realHeight r)) c r := by
    simp only [updateHeight, hsl, hsr]
  rw [hup]
  by_cases hov1 : realHeight l = realHeight r + 2
  · cases l with
    | nil => exact absurd hov1 (by simp only [realHeight]; omega)
    | node a u hu cu b =>
      obtain ⟨hHa, hHb, hue⟩ := hHl
      obtain ⟨hBa, hBb, hab1, hab2⟩ := hBl
      have hsa := HOK_getNodeHeight a hHa
      have hsb := HOK_getNodeHeight b hHb
      rw [realHeight_node] at hov1
      by_cases hba : realHeight b ≤ realHeight a
      · -- balance(left child) >= 0: single right rotation
        simp only [avlRebalanceDel, rotateRight, rotateLeft, setLeft, setRight,
          updateHeight, getBalance, getNodeHeight_node, getNodeHeight_nil,
          leftOf, rightOf, nodeValue, realHeight, hue, hsa, hsb, hsr]
        split_ifs with h1 h2 h3 h4
        · refine ⟨⟨hHa, ⟨hHb, hHr, ?_⟩, ?_⟩,
            ⟨hBa, ⟨hBb, hBr, ?_, ?_⟩, ?_, ?_⟩, fun hx => ?_, fun hno => ?_, ?_⟩ <;>
            first
            | omega
            | (simp only [realHeight] <;> omega)
        · exact absurd ⟨by omega, by omega⟩ h1
        · exact absurd ⟨by omega, by omega⟩ h1
        · exact absurd ⟨by omega, by omega⟩ h1
        · exact absurd ⟨by omega, by omega⟩ h1
      · -- balance(left child) < 0: double rotation
        cases b with
        | nil => exact absurd hba (by simp only [realHeight]; omega)
        | node b1 w hw cw b2 =>
          obtain ⟨hHb1, hHb2, hwe⟩ := hHb
          obtain ⟨hBb1, hBb2, hb12, hb21⟩ := hBb
          have hsb1 := HOK_getNodeHeight b1 hHb1
          have hsb2 := HOK_getNodeHeight b2 hHb2
          simp only [realHeight] at hov1 hab1 hab2 hba
          simp only [avlRebalanceDel, rotateRight, rotateLeft, setLeft, setRight,
            updateHeight, getBalance, getNodeHeight_node, getNodeHeight_nil,
            leftOf, rightOf, nodeValue, realHeight, hue, hwe, hsa, hsb1, hsb2, hsr]
          split_ifs with h1 h2 h3 h4
          · exact absurd h1.2 (by omega)
          · refine ⟨⟨⟨hHa, hHb1, ?_⟩, ⟨hHb2, hHr, ?_⟩, ?_⟩,
              ⟨⟨hBa, hBb1, ?_, ?_⟩, ⟨hBb2, hBr, ?_, ?_⟩, ?_, ?_⟩,
              fun hx => ?_, fun hno => ?_, ?_⟩ <;>
              first
              | omega
              | (simp only [realHeight] <;> omega)
          · exact absurd h3.1 (by omega)
          · exact absurd h4.1 (by omega)
          · exact absurd ⟨by omega, by omega⟩ h2
  · by_cases hov2 : realHeight r = realHeight l + 2
    · cases r with
      | nil => exact absurd hov2 (by simp only [realHeight]; omega)
      | node d w hw cw e =>
        obtain ⟨hHd, hHe, hwe⟩ := hHr
        obtain ⟨hBd, hBe, hde1, hde2⟩ := hBr
        have hsd := HOK_getNodeHeight d hHd
        have hse := HOK_getNodeHeight e hHe
        rw [realHeight_node] at hov2
        by_cases hde : realHeight d ≤ realHeight e
        · -- balance(right child) <= 0: single left rotation
          simp only [avlRebalanceDel, rotateRight, rotateLeft, setLeft, setRight,
            updateHeight, getBalance, getNodeHeight_node, getNodeHeight_nil,
            leftOf, rightOf, nodeValue, realHeight, hwe, hsl, hsd, hse]
          split_ifs with h1 h2 h3 h4
          · exact absurd h1.1 (by omega)
          · exact absurd h2.1 (by omega)
          · refine ⟨⟨⟨hHl, hHd, ?_⟩, hHe, ?_⟩,
              ⟨⟨hBl, hBd, ?_, ?_⟩, hBe, ?_, ?_⟩,
              fun hx => ?_, fun hno => ?_, ?_⟩ <;>
              first
              | omega
              | (simp only [realHeight] <;> omega)
          · exact absurd h4.2 (by omega)
          · exact absurd ⟨by omega, by omega⟩ h3
        · -- balance(right child) > 0: double rotation
          cases d with
          | nil => exact absurd hde (by simp only [realHeight]; omega)
          | node d1 x hx cx d2 =>
            obtain ⟨hHd1, hHd2, hxe⟩ := hHd
            obtain ⟨hBd1, hBd2, hd12, hd21⟩ := hBd
            have hsd1 := HOK_getNodeHeight d1 hHd1
            have hsd2 := HOK_getNodeHeight d2 hHd2
            simp only [realHeight] at hov2 hde1 hde2 hde
            simp only [avlRebalanceDel, rotateRight, rotateLeft, setLeft, setRight,
              updateHeight, getBalance, getNodeHeight_node, getNodeHeight_nil,
              leftOf, rightOf, nodeValue, realHeight, hwe, hxe, hsl, hsd1, hsd2, hse]
            split_ifs with h1 h2 h3 h4
            · exact absurd h1.1 (by omega)
            · exact absurd h2.1 (by omega)
            · exact absurd h3.2 (by omega)
            · refine ⟨⟨⟨hHl, hHd1, ?_⟩, ⟨hHd2, hHe, ?_⟩, ?_⟩,
                ⟨⟨hBl, hBd1, ?_, ?_⟩, ⟨hBd2, hBe, ?_, ?_⟩, ?_, ?_⟩,
                fun hx2 => ?_, fun hno => ?_, ?_⟩ <;>
                first
                | omega
                | (simp only [realHeight] <;> omega)
            · exact absurd ⟨by omega, by omega⟩ h4
    · -- no overflow: identity
      simp only [avlRebalanceDel, getBalance, leftOf, rightOf, nodeValue, hsl, hsr]
      split_ifs with h1 h2 h3 h4
      · exact absurd h1.1 (by omega)
      · exact absurd h2.1 (by omega)
      · exact absurd h3.1 (by omega)
      · exact absurd h4.1 (by omega)
      · exact ⟨⟨hHl, hHr, rfl⟩, ⟨hBl, hBr, by omega, by omega⟩,
          fun hx => absurd hx (by omega),
          fun hno => by simp only [realHeight],
          by simp only [realHeight] <;> omega⟩
/-- AVLTree._insertNode keeps the tree AVL-shaped with correct stored
heights, changes the height by at most +1, and when the height grows on a
non-empty tree the new root leans exactly towards the inserted value. -/
theorem avlInsertNode_avl (value : Int) :
    ∀ t cnt, HOK t → BalancedT t →
      HOK (avlInsertNode t value cnt).1 ∧ BalancedT (avlInsertNode t value cnt).1 ∧
      realHeight t ≤ realHeight (avlInsertNode t value cnt).1 ∧
      realHeight (avlInsertNode t value cnt).1 ≤ realHeight t + 1 ∧
      (realHeight (avlInsertNode t value cnt).1 = realHeight t + 1 →
        t = BinTree.nil ∨
        (realHeight (leftOf (avlInsertNode t value cnt).1)
            = realHeight (rightOf (avlInsertNode t value cnt).1) + 1 ∧
          value < nodeValue (avlInsertNode t value cnt).1) ∨
        (realHeight (rightOf (avlInsertNode t value cnt).1)
            = realHeight (leftOf (avlInsertNode t value cnt).1) + 1 ∧
          nodeValue (avlInsertNode t value cnt).1 < value)) := by
  intro t
  induction t with
  | nil =>
    intro cnt _ _
    have hstep : (avlInsertNode BinTree.nil value cnt).1
        = BinTree.node BinTree.nil value 1 Color.red BinTree.nil := rfl
    rw [hstep]
    exact ⟨⟨trivial, trivial, by simp [realHeight]⟩,
      ⟨trivial, trivial, by simp [realHeight], by simp [realHeight]⟩,
      by simp [realHeight], by simp [realHeight], fun _ => Or.inl rfl⟩
  | node l v h c r ihl ihr =>
    intro cnt hH hB
    obtain ⟨hHl, hHr, hhe⟩ := hH
    obtain ⟨hBl, hBr, hb1, hb2⟩ := hB
    by_cases hlt : value < v
    · obtain ⟨ihH, ihB, ihlo, ihhi, ihch⟩ := ihl cnt hHl hBl
      have hstep : (avlInsertNode (BinTree.node l v h c r) value cnt).1
          = avlRebalanceIns (updateHeight
              (BinTree.node (avlInsertNode l value cnt).1 v h c r)) value := by
        simp only [avlInsertNode, if_pos hlt]
      rw [hstep]
      have hcl : realHeight (avlInsertNode l value cnt).1 = realHeight r + 2 →
          (realHeight (leftOf (avlInsertNode l value cnt).1)
              = realHeight (rightOf (avlInsertNode l value cnt).1) + 1 ∧
            value < nodeValue (avlInsertNode l value cnt).1) ∨
          (realHeight (rightOf (avlInsertNode l value cnt).1)
              = realHeight (leftOf (avlInsertNode l value cnt).1) + 1 ∧
            nodeValue (avlInsertNode l value cnt).1 < value) := by
        intro hx
        rcases ihch (by omega) with hnil | hc | hc
        · exfalso
          have h0 : realHeight l = 0 := by rw [hnil]; rfl
          omega
        · exact Or.inl hc
        · exact Or.inr hc
      obtain ⟨sH, sB, sov, sid⟩ :=
        avlRebalanceIns_spec (avlInsertNode l value cnt).1 r v value h c
          ihH hHr ihB hBr (by omega) (by omega) hcl
          (fun hx => absurd hx (by omega))
      by_cases hovp : realHeight (avlInsertNode l value cnt).1 = realHeight r + 2
      · have hre := sov (Or.inl hovp)
        refine ⟨sH, sB, ?_, ?_, ?_⟩
        · rw [hre]; simp only [realHeight]; omega
        · rw [hre]; simp only [realHeight]; omega
        · rw [hre]
          intro hgrow
          exfalso
          simp only [realHeight] at hgrow
          omega
      · have hid := sid ⟨by omega, by omega⟩
        have hre : realHeight (avlRebalanceIns (updateHeight
            (BinTree.node (avlInsertNode l value cnt).1 v h c r)) value)
            = 1 + max (realHeight (avlInsertNode l value cnt).1) (realHeight r) := by
          rw [hid, realHeight_node]
        refine ⟨sH, sB, ?_, ?_, ?_⟩
        · rw [hre]; simp only [realHeight]; omega
        · rw [hre]; simp only [realHeight]; omega
        · rw [hre]
          intro hgrow
          simp only [realHeight] at hgrow
          right; left
          rw [hid]
          simp only [leftOf, rightOf, nodeValue]
          exact ⟨by omega, hlt⟩
    · by_cases hgt : value > v
      · obtain ⟨ihH, ihB, ihlo, ihhi, ihch⟩ := ihr cnt hHr hBr
        have hstep : (avlInsertNode (BinTree.node l v h c r) value cnt).1
            = avlRebalanceIns (updateHeight
                (BinTree.node l v h c (avlInsertNode r value cnt).1)) value := by
          simp only [avlInsertNode, if_neg hlt, if_pos hgt]
        rw [hstep]
        have hcr : realHeight (avlInsertNode r value cnt).1 = realHeight l + 2 →
            (realHeight (leftOf (avlInsertNode r value cnt).1)
                = realHeight (rightOf (avlInsertNode r value cnt).1) + 1 ∧
              value < nodeValue (avlInsertNode r value cnt).1) ∨
            (realHeight (rightOf (avlInsertNode r value cnt).1)
                = realHeight (leftOf (avlInsertNode r value cnt).1) + 1 ∧
              nodeValue (avlInsertNode r value cnt).1 < value) := by
          intro hx
          rcases ihch (by omega) with hnil | hc | hc
          · exfalso
            have h0 : realHeight r = 0 := by rw [hnil]; rfl
            omega
          · exact Or.inl hc
          · exact Or.inr hc
        obtain ⟨sH, sB, sov, sid⟩ :=
          avlRebalanceIns_spec l (avlInsertNode r value cnt).1 v value h c
            hHl ihH hBl ihB (by omega) (by omega)
            (fun hx => absurd hx (by omega)) hcr
        by_cases hovp : realHeight (avlInsertNode r value cnt).1 = realHeight l + 2
        · have hre := sov (Or.inr hovp)
          refine ⟨sH, sB, ?_, ?_, ?_⟩
          · rw [hre]; simp only [realHeight]; omega
          · rw [hre]; simp only [realHeight]; omega
          · rw [hre]
            intro hgrow
            exfalso
            simp only [realHeight] at hgrow
            omega
        · have hid := sid ⟨by omega, by omega⟩
          have hre : realHeight (avlRebalanceIns (updateHeight
              (BinTree.node l v h c (avlInsertNode r value cnt).1)) value)
              = 1 + max (realHeight l) (realHeight (avlInsertNode r value cnt).1) := by
            rw [hid, realHeight_node]
          refine ⟨sH, sB, ?_, ?_, ?_⟩
          · rw [hre]; simp only [realHeight]; omega
          · rw [hre]; simp only [realHeight]; omega
          · rw [hre]
            intro hgrow
            simp only [realHeight] at hgrow
            right; right
            rw [hid]
            simp only [leftOf, rightOf, nodeValue]
            exact ⟨by omega, hgt⟩
      · have hstep : (avlInsertNode (BinTree.node l v h c r) value cnt).1
            = BinTree.node l v h c r := by
          simp only [avlInsertNode, if_neg hlt, if_neg hgt]
        rw [hstep]
        exact ⟨⟨hHl, hHr, hhe⟩, ⟨hBl, hBr, hb1, hb2⟩, le_refl _, by omega,
          fun hgrow => absurd hgrow (by omega)⟩


/-- AVLTree._deleteNode keeps the tree AVL-shaped with correct stored
heights and lowers the height by at most 1. -/
theorem avlDeleteNode_avl :
    ∀ t value cnt, HOK t → BalancedT t →
      HOK (avlDeleteNode t value cnt).1 ∧ BalancedT (avlDeleteNode t value cnt).1 ∧
      realHeight (avlDeleteNode t value cnt).1 ≤ realHeight t ∧
      realHeight t ≤ realHeight (avlDeleteNode t value cnt).1 + 1 := by
  intro t
  induction t with
  | nil => intro value cnt _ _; exact ⟨trivial, trivial, le_refl _, by simp [realHeight]⟩
  | node l v h c r ihl ihr =>
    intro value cnt hH hB
    obtain ⟨hHl, hHr, hhe⟩ := hH
    obtain ⟨hBl, hBr, hb1, hb2⟩ := hB
    by_cases hlt : value < v
    · obtain ⟨ihH, ihB, ihlo, ihhi⟩ := ihl value cnt hHl hBl
      have hstep : (avlDeleteNode (BinTree.node l v h c r) value cnt).1
          = avlRebalanceDel (updateHeight
              (BinTree.node (avlDeleteNode l value cnt).1 v h c r)) := by
        simp only [avlDeleteNode, if_pos hlt]
      rw [hstep]
      obtain ⟨sH, sB, sov, sid, shi⟩ :=
        avlRebalanceDel_spec (avlDeleteNode l value cnt).1 r v h c
          ihH hHr ihB hBr (by omega) (by omega)
      by_cases hov : realHeight (avlDeleteNode l value cnt).1 = realHeight r + 2 ∨
          realHeight r = realHeight (avlDeleteNode l value cnt).1 + 2
      · have hlo := sov hov
        rcases hov with hoveq | hoveq <;>
          exact ⟨sH, sB, by simp only [realHeight]; omega,
            by simp only [realHeight]; omega⟩
      · have hid := sid ⟨by omega, by omega⟩
        exact ⟨sH, sB, by simp only [realHeight]; omega,
          by simp only [realHeight]; omega⟩
    · by_cases hgt : value > v
      · obtain ⟨ihH, ihB, ihlo, ihhi⟩ := ihr value cnt hHr hBr
        have hstep : (avlDeleteNode (BinTree.node l v h c r) value cnt).1
            = avlRebalanceDel (updateHeight
                (BinTree.node l v h c (avlDeleteNode r value cnt).1)) := by
          simp only [avlDeleteNode, if_neg hlt, if_pos hgt]
        rw [hstep]
        obtain ⟨sH, sB, sov, sid, shi⟩ :=
          avlRebalanceDel_spec l (avlDeleteNode r value cnt).1 v h c
            hHl ihH hBl ihB (by omega) (by omega)
        by_cases hov : realHeight l = realHeight (avlDeleteNode r value cnt).1 + 2 ∨
            realHeight (avlDeleteNode r value cnt).1 = realHeight l + 2
        · have hlo := sov hov
          rcases hov with hoveq | hoveq <;>
            exact ⟨sH, sB, by simp only [realHeight]; omega,
              by simp only [realHeight]; omega⟩
        · have hid := sid ⟨by omega, by omega⟩
          exact ⟨sH, sB, by simp only [realHeight]; omega,
            by simp only [realHeight]; omega⟩
      · by_cases hor : l = BinTree.nil ∨ r = BinTree.nil
        · have hstep : (avlDeleteNode (BinTree.node l v h c r) value cnt).1
              = if l ≠ BinTree.nil then l else r := by
            simp only [avlDeleteNode, if_neg hlt, if_neg hgt, if_pos hor]
          by_cases hln : l = BinTree.nil
          · rw [hstep, if_neg (fun hx => hx hln)]
            have h0l : realHeight l = 0 := by rw [hln]; rfl
            exact ⟨hHr, hBr, by simp only [realHeight]; omega,
              by simp only [realHeight]; omega⟩
          · rw [hstep, if_pos hln]
            rcases hor with hc | hrn
            · exact absurd hc hln
            · have h0r : realHeight r = 0 := by rw [hrn]; rfl
              exact ⟨hHl, hBl, by simp only [realHeight]; omega,
                by simp only [realHeight]; omega⟩
        · obtain ⟨ihH, ihB, ihlo, ihhi⟩ := ihr (findMinVal r) cnt hHr hBr
          have hstep : (avlDeleteNode (BinTree.node l v h c r) value cnt).1
              = avlRebalanceDel (updateHeight
                  (BinTree.node l (findMinVal r) h c
                    (avlDeleteNode r (findMinVal r) cnt).1)) := by
            simp only [avlDeleteNode, if_neg hlt, if_neg hgt, if_neg hor]
          rw [hstep]
          obtain ⟨sH, sB, sov, sid, shi⟩ :=
            avlRebalanceDel_spec l (avlDeleteNode r (findMinVal r) cnt).1
              (findMinVal r) h c hHl ihH hBl ihB (by omega) (by omega)
          by_cases hov : realHeight l
                = realHeight (avlDeleteNode r (findMinVal r) cnt).1 + 2 ∨
              realHeight (avlDeleteNode r (findMinVal r) cnt).1 = realHeight l + 2
          · have hlo := sov hov
            rcases hov with hoveq | hoveq <;>
              exact ⟨sH, sB, by simp only [realHeight]; omega,
                by simp only [realHeight]; omega⟩
          · have hid := sid ⟨by omega, by omega⟩
            exact ⟨sH, sB, by simp only [realHeight]; omega,
              by simp only [realHeight]; omega⟩

theorem AVLTree_applyOps_avl :
    ∀ (ops : List AVLOp) (s : AVLTree), HOK s.root → BalancedT s.root →
      HOK (AVLTree.applyOps s ops).root ∧ BalancedT (AVLTree.applyOps s ops).root := by
  intro ops
  induction ops with
  | nil => intro s hH hB; exact ⟨hH, hB⟩
  | cons op rest ih =>
    intro s hH hB
    cases op with
    | ins v =>
      have h := avlInsertNode_avl v s.root s.nodeCount hH hB
      exact ih (AVLTree.insert s v).1 h.1 h.2.1
    | del v =>
      have h := avlDeleteNode_avl s.root v s.nodeCount hH hB
      exact ih (AVLTree.delete s v).2.1 h.1 h.2.1

/-- C5: after every sequence of insert and delete operations on an AVL
tree starting empty, every node has balance factor
height(left) - height(right) in {-1, 0, 1}. -/
theorem C5_avl_balance_factor (ops : List AVLOp) :
    AllBalanced (AVLTree.applyOps AVLTree.init ops).root := by
  have h := AVLTree_applyOps_avl ops AVLTree.init trivial trivial
  exact balancedT_allBalanced _ h.2

/-! ## C6 machinery: B-Tree shape invariant -/

/-- B-Tree invariant for a non-root subtree whose leaves sit d levels
below it: key count in [t-1, 2t-1], children = keys + 1 on internal
nodes, empty children on leaves, uniform leaf depth. -/
inductive NodeOK (t : Nat) : MKNode → Nat → Prop
  | leaf (k : List JSVal) (h1 : t - 1 ≤ k.length) (h2 : k.length ≤ 2 * t - 1) :
      NodeOK t (MKNode.mk k [] true) 0
  | internal (k : List JSVal) (cs : List MKNode) (d : Nat)
      (h1 : t - 1 ≤ k.length) (h2 : k.length ≤ 2 * t - 1)
      (hlen : cs.length = k.length + 1)
      (hcs : ∀ c ∈ cs, NodeOK t c d) :
      NodeOK t (MKNode.mk k cs false) (d + 1)

/-- Same for the root, whose key count may go down to 1. -/
inductive RootOK (t : Nat) : MKNode → Nat → Prop
  | leaf (k : List JSVal) (h2 : k.length ≤ 2 * t - 1) :
      RootOK t (MKNode.mk k [] true) 0
  | internal (k : List JSVal) (cs : List MKNode) (d : Nat)
      (h1 : 1 ≤ k.length) (h2 : k.length ≤ 2 * t - 1)
      (hlen : cs.length = k.length + 1)
      (hcs : ∀ c ∈ cs, NodeOK t c d) :
      RootOK t (MKNode.mk k cs false) (d + 1)

/-- Structural part of the invariant, without the key-count bounds of
the node itself. -/
def StructOK (t : Nat) : MKNode → Nat → Prop
  | MKNode.mk _ cs true, d => d = 0 ∧ cs = []
  | MKNode.mk k cs false, d => 1 ≤ d ∧ cs.length = k.length + 1 ∧
      ∀ c ∈ cs, NodeOK t c (d - 1)

theorem NodeOK_struct {t : Nat} {x : MKNode} {d : Nat} (h : NodeOK t x d) :
    StructOK t x d := by
  cases h with
  | leaf k h1 h2 => exact ⟨rfl, rfl⟩
  | internal k cs d h1 h2 hlen hcs => exact ⟨by omega, hlen, by simpa using hcs⟩

theorem NodeOK_bounds {t : Nat} {x : MKNode} {d : Nat} (h : NodeOK t x d) :
    t - 1 ≤ x.keys.length ∧ x.keys.length ≤ 2 * t - 1 := by
  cases h with
  | leaf k h1 h2 => exact ⟨h1, h2⟩
  | internal k cs d h1 h2 hlen hcs => exact ⟨h1, h2⟩

theorem NodeOK_of_struct {t : Nat} {x : MKNode} {d : Nat} (hs : StructOK t x d)
    (h1 : t - 1 ≤ x.keys.length) (h2 : x.keys.length ≤ 2 * t - 1) :
    NodeOK t x d := by
  cases x with
  | mk k cs f =>
    cases f with
    | true =>
      obtain ⟨hd, hcs⟩ := hs
      subst hd
      subst hcs
      exact NodeOK.leaf k h1 h2
    | false =>
      obtain ⟨hd, hlen, hcs⟩ := hs
      have hd2 : d = (d - 1) + 1 := by omega
      rw [hd2]
      exact NodeOK.internal k cs (d - 1) h1 h2 hlen hcs

theorem RootOK_struct {t : Nat} {x : MKNode} {d : Nat} (h : RootOK t x d) :
    StructOK t x d := by
  cases h with
  | leaf k h2 => exact ⟨rfl, rfl⟩
  | internal k cs d h1 h2 hlen hcs => exact ⟨by omega, hlen, by simpa using hcs⟩

theorem RootOK_of_struct {t : Nat} {x : MKNode} {d : Nat} (hs : StructOK t x d)
    (h1 : x.leafFlag = false → 1 ≤ x.keys.length) (h2 : x.keys.length ≤ 2 * t - 1) :
    RootOK t x d := by
  cases x with
  | mk k cs f =>
    cases f with
    | true =>
      obtain ⟨hd, hcs⟩ := hs
      subst hd
      subst hcs
      exact RootOK.leaf k h2
    | false =>
      obtain ⟨hd, hlen, hcs⟩ := hs
      have hd2 : d = (d - 1) + 1 := by omega
      rw [hd2]
      exact RootOK.internal k cs (d - 1) (h1 rfl) h2 hlen hcs

theorem length_jsInsertAt (l : List α) (i : Nat) (v : α) :
    (jsInsertAt l i v).length = l.length + 1 := by
  simp [jsInsertAt]
  omega

theorem length_leafInsRev (value : JSVal) :
    ∀ l : List JSVal, (leafInsRev value l).length = l.length + 1 := by
  intro l
  induction l with
  | nil => rfl
  | cons k ks ih =>
    simp only [leafInsRev]
    split_ifs
    · simp [ih]
    · simp

theorem length_jsLeafInsert (keys : List JSVal) (value : JSVal) :
    (jsLeafInsert keys value).length = keys.length + 1 := by
  simp [jsLeafInsert, length_leafInsRev]

theorem descendIndex_le (keys : List JSVal) (value : JSVal) :
    descendIndex keys value ≤ keys.length := Nat.sub_le _ _

theorem getChild_mem {l : List MKNode} {i : Nat} (h : i < l.length) :
    getChild l i ∈ l := by
  rw [getChild, List.getD_eq_getElem _ _ h]
  exact List.getElem_mem h

theorem getChild_set_self {l : List MKNode} {i : Nat} (y : MKNode) (h : i < l.length) :
    getChild (l.set i y) i = y := by
  rw [getChild, List.getD_eq_getElem _ _ (by simpa using h)]
  simp

theorem getChild_jsInsertAt_self (l : List MKNode) (i : Nat) (z : MKNode)
    (h : i ≤ l.length) :
    getChild (jsInsertAt l i z) i = z := by
  have hlen : (l.take i).length = i := by simp [Nat.min_eq_left h]
  rw [getChild, jsInsertAt, List.append_assoc, List.getD_eq_getElem?_getD,
    List.getElem?_append_right (by omega)]
  simp [hlen]

theorem getChild_jsInsertAt_lt (l : List MKNode) (i j : Nat) (z : MKNode)
    (hj : j < i) (h2 : j < l.length) :
    getChild (jsInsertAt l i z) j = getChild l j := by
  have hjt : j < (l.take i).length := by simp; omega
  rw [getChild, getChild, jsInsertAt, List.append_assoc,
    List.getD_eq_getElem?_getD, List.getD_eq_getElem?_getD,
    List.getElem?_append_left hjt, List.getElem?_take_of_lt hj]

/-- BTree._splitChild on a full child: the parent gains one key and one
child, both halves of the split child satisfy the non-root invariant at
the same depth, and the halves sit at positions i and i+1. -/
theorem btSplitChild_spec (t : Nat) (ht : 2 ≤ t) (keys : List JSVal)
    (cs : List MKNode) (i : Nat) (d : Nat)
    (hcs : ∀ c ∈ cs, NodeOK t c d)
    (hfull : (getChild cs i).keys.length = 2 * t - 1) :
    (btSplitChild t (MKNode.mk keys cs false) i).keys.length = keys.length + 1 ∧
    (btSplitChild t (MKNode.mk keys cs false) i).children.length = cs.length + 1 ∧
    (btSplitChild t (MKNode.mk keys cs false) i).leafFlag = false ∧
    (∀ c ∈ (btSplitChild t (MKNode.mk keys cs false) i).children, NodeOK t c d) ∧
    (getChild (btSplitChild t (MKNode.mk keys cs false) i).children i).keys.length
      = t - 1 ∧
    (getChild (btSplitChild t (MKNode.mk keys cs false) i).children (i + 1)).keys.length
      = t - 1 := by
  have hi : i < cs.length := by
    by_contra hcon
    rw [getChild, List.getD_eq_default _ _ (le_of_not_lt hcon)] at hfull
    simp only [MKNode.keys, List.length_nil] at hfull
    omega
  have hyOK := hcs _ (getChild_mem hi)
  cases hgc : getChild cs i with
  | mk ykeys ycs yleaf =>
    rw [hgc] at hyOK hfull
    simp only [MKNode.keys] at hfull
    cases hyOK with
    | leaf k h1 h2 =>
      simp only [btSplitChild, hgc, if_true, MKNode.keys, MKNode.children,
        MKNode.leafFlag]
      refine ⟨length_jsInsertAt _ _ _, ?_, trivial, ?_, ?_, ?_⟩
      · rw [length_jsInsertAt, List.length_set]
      · intro c hc
        rcases mem_jsInsertAt hc with hz | hmem
        · subst hz
          refine NodeOK.leaf _ ?_ ?_ <;> simp <;> omega
        · rcases List.mem_or_eq_of_mem_set hmem with hmem2 | hy2
          · exact hcs _ hmem2
          · subst hy2
            refine NodeOK.leaf _ ?_ ?_ <;> simp [jsTruncate] <;> omega
      · rw [getChild_jsInsertAt_lt _ _ _ _ (by omega) (by simpa using hi),
          getChild_set_self _ hi]
        simp [jsTruncate]
        omega
      · rw [getChild_jsInsertAt_self _ _ _ (by simpa using hi)]
        simp
    | internal k cs2 d2 h1 h2 hlen2 hcs2 =>
      simp only [btSplitChild, hgc, if_false, MKNode.keys, MKNode.children,
        MKNode.leafFlag, Bool.false_eq_true]
      refine ⟨length_jsInsertAt _ _ _, ?_, trivial, ?_, ?_, ?_⟩
      · rw [length_jsInsertAt, List.length_set]
      · intro c hc
        rcases mem_jsInsertAt hc with hz | hmem
        · subst hz
          refine NodeOK.internal _ _ _ ?_ ?_ ?_ ?_
          · simp
          · simp; omega
          · simp; omega
          · intro c2 hc2
            exact hcs2 _ (List.mem_of_mem_drop (List.mem_of_mem_take hc2))
        · rcases List.mem_or_eq_of_mem_set hmem with hmem2 | hy2
          · exact hcs _ hmem2
          · subst hy2
            refine NodeOK.internal _ _ _ ?_ ?_ ?_ ?_
            · simp [jsTruncate]; omega
            · simp [jsTruncate]; omega
            · simp [jsTruncate]; omega
            · intro c2 hc2
              exact hcs2 _ (List.mem_of_mem_take hc2)
      · rw [getChild_jsInsertAt_lt _ _ _ _ (by omega) (by simpa using hi),
          getChild_set_self _ hi]
        simp [jsTruncate]
        omega
      · rw [getChild_jsInsertAt_self _ _ _ (by simpa using hi)]
        simp

theorem MKNode.keys_mk (k : List JSVal) (c : List MKNode) (f : Bool) :
    (MKNode.mk k c f).keys = k := rfl

theorem MKNode.children_mk (k : List JSVal) (c : List MKNode) (f : Bool) :
    (MKNode.mk k c f).children = c := rfl

theorem MKNode.leafFlag_mk (k : List JSVal) (c : List MKNode) (f : Bool) :
    (MKNode.mk k c f).leafFlag = f := rfl

theorem insMeasure_pos (x : MKNode) : 1 ≤ insMeasure x := by
  have := bsize_pos x
  unfold insMeasure
  omega

/-- BTree._insertNonFull on a strictly non-full node keeps the structural
invariant at the same depth, preserves the leaf flag, and grows the key
count by at most one. -/
theorem btInsertNonFull_spec (t : Nat) (ht : 2 ≤ t) (value : JSVal) :
    ∀ (N : Nat) (x : MKNode) (d : Nat), insMeasure x ≤ N →
      x.keys.length ≤ 2 * t - 2 →
      StructOK t x d →
      (btInsertNonFull t x value).leafFlag = x.leafFlag ∧
      x.keys.length ≤ (btInsertNonFull t x value).keys.length ∧
      (btInsertNonFull t x value).keys.length ≤ x.keys.length + 1 ∧
      StructOK t (btInsertNonFull t x value) d := by
  intro N
  induction N with
  | zero =>
    intro x d hm
    exact absurd hm (by have := insMeasure_pos x; omega)
  | succ N ih =>
    intro x d hm hnf hst
    cases x with
    | mk keys cs f =>
      cases f with
      | true =>
        obtain ⟨hd0, hcs0⟩ := hst
        have hstep : btInsertNonFull t (MKNode.mk keys cs true) value
            = MKNode.mk (jsLeafInsert keys value) cs true := by
          simp only [btInsertNonFull]
        rw [hstep]
        exact ⟨rfl, by simp [MKNode.keys, length_jsLeafInsert],
          by simp [MKNode.keys, length_jsLeafInsert], hd0, hcs0⟩
      | false =>
        obtain ⟨hd1, hlen, hcsOK⟩ := hst
        simp only [MKNode.keys] at hnf
        by_cases hfull :
            (getChild cs (descendIndex keys value)).keys.length = 2 * t - 1
        · -- split the full child, then descend into one of its halves
          obtain ⟨hk2, hc2, hf2, hm2, hgi, hgi1⟩ :=
            btSplitChild_spec t ht keys cs (descendIndex keys value) (d - 1)
              hcsOK hfull
          have hstep : btInsertNonFull t (MKNode.mk keys cs false) value
              = MKNode.mk
                  (btSplitChild t (MKNode.mk keys cs false)
                    (descendIndex keys value)).keys
                  ((btSplitChild t (MKNode.mk keys cs false)
                      (descendIndex keys value)).children.set
                    (if jgt value (jsGet (btSplitChild t (MKNode.mk keys cs false)
                        (descendIndex keys value)).keys (descendIndex keys value))
                      then descendIndex keys value + 1 else descendIndex keys value)
                    (btInsertNonFull t
                      (getChild (btSplitChild t (MKNode.mk keys cs false)
                          (descendIndex keys value)).children
                        (if jgt value (jsGet (btSplitChild t
                            (MKNode.mk keys cs false)
                            (descendIndex keys value)).keys
                            (descendIndex keys value))
                          then descendIndex keys value + 1
                          else descendIndex keys value)) value))
                  (btSplitChild t (MKNode.mk keys cs false)
                    (descendIndex keys value)).leafFlag := by
            rw [btInsertNonFull]
            simp only [if_pos hfull]
          rw [hstep]
          set i := descendIndex keys value with hidef
          set i2 := if jgt value (jsGet (btSplitChild t (MKNode.mk keys cs false)
              i).keys i) then i + 1 else i with hi2def
          have hile : i ≤ keys.length := descendIndex_le keys value
          have hi2lt : i2 < (btSplitChild t (MKNode.mk keys cs false)
              i).children.length := by
            rw [hc2, hlen]
            rw [hi2def]
            split_ifs <;> omega
          have hcmem := getChild_mem hi2lt
          have hcOK := hm2 _ hcmem
          have hckeys : (getChild (btSplitChild t (MKNode.mk keys cs false)
              i).children i2).keys.length = t - 1 := by
            rw [hi2def]
            split_ifs
            · exact hgi1
            · exact hgi
          have hmeas : insMeasure (getChild (btSplitChild t
              (MKNode.mk keys cs false) i).children i2) ≤ N := by
            have h2 := btSplitChild_child_measure t keys cs i hcmem
            omega
          obtain ⟨rf, rlo, rhi, rst⟩ := ih
            (getChild (btSplitChild t (MKNode.mk keys cs false) i).children i2)
            (d - 1) hmeas (by omega) (NodeOK_struct hcOK)
          have hrOK : NodeOK t (btInsertNonFull t
              (getChild (btSplitChild t (MKNode.mk keys cs false) i).children i2)
              value) (d - 1) := by
            refine NodeOK_of_struct rst ?_ ?_
            · have := NodeOK_bounds hcOK
              omega
            · omega
          refine ⟨by simp only [MKNode.leafFlag_mk]; exact hf2, ?_, ?_, ?_⟩
          · simp only [MKNode.keys_mk]
            omega
          · simp only [MKNode.keys_mk]
            omega
          · rw [hf2]
            refine ⟨hd1, ?_, ?_⟩
            · simp only [MKNode.children_mk, MKNode.keys_mk, List.length_set]
              omega
            · intro c hc
              try simp only [MKNode.children_mk] at hc
              rcases List.mem_or_eq_of_mem_set hc with hmem2 | hr
              · exact hm2 _ hmem2
              · subst hr
                exact hrOK
        · -- descend into the (non-full) child directly
          have hstep : btInsertNonFull t (MKNode.mk keys cs false) value
              = MKNode.mk keys
                  (cs.set (descendIndex keys value)
                    (btInsertNonFull t (getChild cs (descendIndex keys value))
                      value)) false := by
            rw [btInsertNonFull]
            simp only [if_neg hfull]
          rw [hstep]
          set i := descendIndex keys value with hidef
          have hilt : i < cs.length := by
            have := descendIndex_le keys value
            omega
          have hcmem := getChild_mem hilt
          have hcOK := hcsOK _ hcmem
          have hcb := NodeOK_bounds hcOK
          have hmeas : insMeasure (getChild cs i) ≤ N := by
            have h2 := insMeasure_lt_of_mem hcmem keys
            have h3 : insMeasure (MKNode.mk keys cs false)
                = MKNode.bsize (MKNode.mk keys cs false) + 1 := by
              simp [insMeasure, MKNode.leafFlag]
            have h4 : insMeasure (MKNode.mk keys cs false) ≤ N + 1 := hm
            omega
          obtain ⟨rf, rlo, rhi, rst⟩ := ih (getChild cs i) (d - 1) hmeas
            (by omega) (NodeOK_struct hcOK)
          have hrOK : NodeOK t (btInsertNonFull t (getChild cs i) value)
              (d - 1) := by
            refine NodeOK_of_struct rst ?_ ?_ <;> omega
          refine ⟨rfl, le_refl _, by simp only [MKNode.keys_mk]; omega, hd1, ?_, ?_⟩
          · simpa using hlen
          · intro c hc
            try simp only [MKNode.children_mk] at hc
            rcases List.mem_or_eq_of_mem_set hc with hmem2 | hr
            · exact hcsOK _ hmem2
            · subst hr
              exact hrOK

/-- Every node object of a subtree, root first. -/
def allNodes : MKNode → List MKNode
  | MKNode.mk k cs f =>
    MKNode.mk k cs f :: (cs.attach.map (fun c => allNodes c.1)).flatten
termination_by x => sizeOf x
decreasing_by
  have h := List.sizeOf_lt_of_mem c.2
  simp only [MKNode.mk.sizeOf_spec]
  omega

/-- Depths (relative to the given base) of the leaves of a subtree. -/
def leafDepths : MKNode → Nat → List Nat
  | MKNode.mk _ _ true, b => [b]
  | MKNode.mk _ cs false, b => (cs.attach.map (fun c => leafDepths c.1 (b + 1))).flatten
termination_by x _ => sizeOf x
decreasing_by
  have h := List.sizeOf_lt_of_mem c.2
  simp only [MKNode.mk.sizeOf_spec]
  omega

theorem nodeOK_allNodes_bounds {t : Nat} :
    ∀ {x : MKNode} {d : Nat}, NodeOK t x d →
      ∀ n ∈ allNodes x, t - 1 ≤ n.keys.length ∧ n.keys.length ≤ 2 * t - 1 := by
  intro x d h
  induction h with
  | leaf k h1 h2 =>
    intro n hn
    simp only [allNodes, List.attach_nil, List.map_nil, List.flatten_nil,
      List.mem_singleton] at hn
    subst hn
    exact ⟨h1, h2⟩
  | internal k cs d h1 h2 hlen hcs ih =>
    intro n hn
    simp only [allNodes, List.mem_cons] at hn
    rcases hn with hn | hn
    · subst hn
      exact ⟨h1, h2⟩
    · rw [List.mem_flatten] at hn
      obtain ⟨l, hl, hnl⟩ := hn
      rw [List.mem_map] at hl
      obtain ⟨c, _, hceq⟩ := hl
      subst hceq
      exact ih c.1 c.2 n hnl

theorem nodeOK_leafDepths {t : Nat} :
    ∀ {x : MKNode} {d : Nat}, NodeOK t x d →
      ∀ b, ∀ e ∈ leafDepths x b, e = b + d := by
  intro x d h
  induction h with
  | leaf k h1 h2 =>
    intro b e he
    simp only [leafDepths, List.mem_singleton] at he
    omega
  | internal k cs d h1 h2 hlen hcs ih =>
    intro b e he
    simp only [leafDepths] at he
    rw [List.mem_flatten] at he
    obtain ⟨l, hl, hel⟩ := he
    rw [List.mem_map] at hl
    obtain ⟨c, _, hceq⟩ := hl
    subst hceq
    have := ih c.1 c.2 (b + 1) e hel
    omega

theorem rootOK_extract {t : Nat} {r : MKNode} {d : Nat} (h : RootOK t r d) :
    (∀ c ∈ r.children, ∀ n ∈ allNodes c,
        t - 1 ≤ n.keys.length ∧ n.keys.length ≤ 2 * t - 1) ∧
    ∀ e ∈ leafDepths r 0, e = d := by
  cases h with
  | leaf k h2 =>
    refine ⟨?_, ?_⟩
    · intro c hc
      simp only [MKNode.children_mk, List.not_mem_nil] at hc
    · intro e he
      simp only [leafDepths, List.mem_singleton] at he
      omega
  | internal k cs d h1 h2 hlen hcs =>
    refine ⟨?_, ?_⟩
    · intro c hc n hn
      exact nodeOK_allNodes_bounds (hcs c (by simpa using hc)) n hn
    · intro e he
      simp only [leafDepths] at he
      rw [List.mem_flatten] at he
      obtain ⟨l, hl, hel⟩ := he
      rw [List.mem_map] at hl
      obtain ⟨c, _, hceq⟩ := hl
      subst hceq
      have := nodeOK_leafDepths (hcs c.1 c.2) 1 e hel
      omega

theorem RootOK_upper {t : Nat} {r : MKNode} {d : Nat} (h : RootOK t r d) :
    r.keys.length ≤ 2 * t - 1 := by
  cases h with
  | leaf k h2 => exact h2
  | internal k cs d h1 h2 hlen hcs => exact h2

theorem RootOK_lower {t : Nat} {r : MKNode} {d : Nat} (h : RootOK t r d)
    (hf : r.leafFlag = false) : 1 ≤ r.keys.length := by
  cases h with
  | leaf k h2 => simp [MKNode.leafFlag_mk] at hf
  | internal k cs d h1 h2 hlen hcs => exact h1

theorem RootOK_full_nodeOK {t : Nat} {r : MKNode} {d : Nat} (h : RootOK t r d)
    (hge : t - 1 ≤ r.keys.length) : NodeOK t r d := by
  cases h with
  | leaf k h2 => exact NodeOK.leaf k (by simpa using hge) h2
  | internal k cs d h1 h2 hlen hcs =>
    exact NodeOK.internal k cs d (by simpa using hge) h2 hlen hcs

/-- Invariant of a whole BTree state. -/
def BTreeOK (s : BTree) : Prop :=
  match s.root with
  | none => True
  | some r => ∃ d, RootOK s.t r d

theorem BTree_insert_ok (s : BTree) (ht : 2 ≤ s.t) (v : Int) (h : BTreeOK s) :
    BTreeOK (BTree.insert s v).1 ∧ (BTree.insert s v).1.t = s.t := by
  obtain ⟨sroot, st, sn⟩ := s
  have ht2 : 2 ≤ st := ht
  cases sroot with
  | none =>
    refine ⟨⟨0, RootOK.leaf _ ?_⟩, rfl⟩
    show (jsSet [] 0 (some v)).length ≤ 2 * st - 1
    simp [jsSet]
    omega
  | some r =>
    have h2 : ∃ d, RootOK st r d := h
    obtain ⟨d, hrOK⟩ := h2
    by_cases hfull : r.keys.length = 2 * st - 1
    · have hstep : (BTree.insert ⟨some r, st, sn⟩ v).1
          = ⟨some (btInsertNonFull st
              (btSplitChild st (MKNode.mk [] [r] false) 0) (some v)), st, sn + 1⟩ := by
        simp only [BTree.insert, if_pos hfull]
      rw [hstep]
      have hrN : NodeOK st r d := RootOK_full_nodeOK hrOK (by omega)
      have hgc0 : getChild [r] 0 = r := rfl
      obtain ⟨hk2, hc2, hf2, hm2, _, _⟩ :=
        btSplitChild_spec st ht2 [] [r] 0 d
          (fun c hc => by rw [List.mem_singleton] at hc; rw [hc]; exact hrN)
          (by rw [hgc0]; exact hfull)
      cases hsp : btSplitChild st (MKNode.mk [] [r] false) 0 with
      | mk sk sc sf =>
        rw [hsp] at hk2 hc2 hf2 hm2
        simp only [MKNode.keys_mk, MKNode.children_mk, MKNode.leafFlag_mk,
          List.length_nil, List.length_singleton] at hk2 hc2 hf2 hm2
        subst hf2
        have hstruct : StructOK st (MKNode.mk sk sc false) (d + 1) := by
          refine ⟨by omega, by omega, ?_⟩
          intro c hc
          simpa using hm2 c hc
        obtain ⟨rf, rlo, rhi, rst⟩ :=
          btInsertNonFull_spec st ht2 (some v)
            (insMeasure (MKNode.mk sk sc false)) (MKNode.mk sk sc false) (d + 1)
            (le_refl _) (by simp only [MKNode.keys_mk]; omega) hstruct
        refine ⟨⟨d + 1, ?_⟩, rfl⟩
        refine RootOK_of_struct rst ?_ ?_
        · intro _
          simp only [MKNode.keys_mk] at rlo
          omega
        · show (btInsertNonFull st (MKNode.mk sk sc false) (some v)).keys.length
            ≤ 2 * st - 1
          simp only [MKNode.keys_mk] at rhi
          omega
    · have hstep : (BTree.insert ⟨some r, st, sn⟩ v).1
          = ⟨some (btInsertNonFull st r (some v)), st, sn + 1⟩ := by
        simp only [BTree.insert, if_neg hfull]
      rw [hstep]
      have hup := RootOK_upper hrOK
      obtain ⟨rf, rlo, rhi, rst⟩ :=
        btInsertNonFull_spec st ht2 (some v) (insMeasure r) r d
          (le_refl _) (by omega) (RootOK_struct hrOK)
      refine ⟨⟨d, ?_⟩, rfl⟩
      refine RootOK_of_struct rst ?_ ?_
      · intro hfl
        rw [rf] at hfl
        have := RootOK_lower hrOK hfl
        omega
      · show (btInsertNonFull st r (some v)).keys.length ≤ 2 * st - 1
        omega

theorem BTree_insertList_ok :
    ∀ (vs : List Int) (s : BTree), 2 ≤ s.t → BTreeOK s →
      BTreeOK (BTree.insertList s vs) ∧ (BTree.insertList s vs).t = s.t := by
  intro vs
  induction vs with
  | nil => intro s _ h; exact ⟨h, rfl⟩
  | cons v vs ih =>
    intro s ht h
    obtain ⟨hok, hts⟩ := BTree_insert_ok s ht v h
    obtain ⟨hok2, hts2⟩ := ih (BTree.insert s v).1 (by omega) hok
    have hfold : BTree.insertList s (v :: vs)
        = BTree.insertList (BTree.insert s v).1 vs := rfl
    rw [hfold]
    exact ⟨hok2, by omega⟩

/-- C6: after any sequence of insertions into a B-Tree of minimum degree
t >= 2 starting empty, every node other than the root holds between t-1
and 2t-1 keys, and every leaf lies at the same depth. -/
theorem C6_btree_invariant (t : Nat) (ht : 2 ≤ t) (vs : List Int) (r : MKNode)
    (hroot : (BTree.insertList (BTree.init t) vs).root = some r) :
    (∀ c ∈ r.children, ∀ n ∈ allNodes c,
        t - 1 ≤ n.keys.length ∧ n.keys.length ≤ 2 * t - 1) ∧
    ∀ d1 ∈ leafDepths r 0, ∀ d2 ∈ leafDepths r 0, d1 = d2 := by
  obtain ⟨hok, hts⟩ := BTree_insertList_ok vs (BTree.init t) ht trivial
  unfold BTreeOK at hok
  rw [hroot] at hok
  obtain ⟨d, hrOK⟩ := hok
  rw [hts] at hrOK
  obtain ⟨hbounds, hdepth⟩ := rootOK_extract hrOK
  refine ⟨hbounds, ?_⟩
  intro d1 h1 d2 h2
  rw [hdepth d1 h1, hdepth d2 h2]

/-- Witness for C6 at t = 2 with the single insertion 3. -/
theorem C6_witness :
    (∀ c ∈ (MKNode.mk [(some 3 : JSVal)] [] true).children, ∀ n ∈ allNodes c,
        2 - 1 ≤ n.keys.length ∧ n.keys.length ≤ 2 * 2 - 1) ∧
    ∀ d1 ∈ leafDepths (MKNode.mk [(some 3 : JSVal)] [] true) 0,
      ∀ d2 ∈ leafDepths (MKNode.mk [(some 3 : JSVal)] [] true) 0, d1 = d2 :=
  C6_btree_invariant 2 (by decide) [3] (MKNode.mk [(some 3 : JSVal)] [] true) rfl
